import Mathlib

/-!
# Verification of the `clock` session ledger and canonicalizer

A shallow embedding of the core of the `clock` time-tracking program:

* `src/normalize.rs` — the activity-label canonicalizer
  (`normalize_activity`, `collapse_repeated_chars`, `split_camel_case`);
* `src/db.rs` — the ledger store (`clock_in`, `clock_out`, `archive_week`,
  `rename_activity`) modelled as pure transitions on a `Store` value whose
  lists mirror the sql tables (list order = rowid/insertion order,
  autoincrement ids threaded explicitly);
* `src/commands.rs` — the command-layer guard in front of `clock_in`.

Strings are Lean `String`s (lists of `Char`); the character classes
(`Char.isUpper`, `Char.isLower`, `Char.toLower`, `Char.isWhitespace`) model
the Rust `char` methods on the ASCII fragment, which is where every claim
and counterexample below lives.  Timestamps are `Int` seconds in the single
reference timezone; `chrono`'s `Duration::num_minutes` truncates toward
zero, embedded as `Int.tdiv _ 60`.
-/

deriving instance DecidableEq for Except

namespace Clock

/-! ## Canonicalizer (`src/normalize.rs`) -/

/-- Emission rule of `collapse_repeated_chars` for one maximal run of the
character `c` of length `n`: 1–2 kept verbatim, exactly 3 collapsed to 2,
4 or more collapsed to 1. -/
def collapseRun (c : Char) (n : Nat) : List Char :=
  if n < 3 then List.replicate n c
  else if n = 3 then [c, c]
  else [c]

/-- The scanning loop of `collapse_repeated_chars`: `c` is the character of
the current run, `n` how many of it have been seen so far. -/
def collapseAux (c : Char) (n : Nat) : List Char → List Char
  | [] => collapseRun c n
  | x :: xs =>
      if x = c then collapseAux c (n + 1) xs
      else collapseRun c n ++ collapseAux x 1 xs

/-- `collapse_repeated_chars` (normalize.rs:41): collapse each maximal run of
an identical character — 1–2 kept, exactly 3 → 2, ≥4 → 1. -/
def collapse_repeated_chars : List Char → List Char
  | [] => []
  | x :: xs => collapseAux x 1 xs

/-- Body of the `split_camel_case` loop for index `i > 0`: `prev` is the
character at `i - 1`; a hyphen is inserted before an uppercase character
when the previous one is lowercase, or when the previous one is uppercase
and the next one is lowercase. -/
def splitCamelAux (prev : Char) : List Char → List Char
  | [] => []
  | c :: rest =>
      let next_lower := match rest with
        | [] => false
        | n :: _ => n.isLower
      if c.isUpper && (prev.isLower || (prev.isUpper && next_lower)) then
        '-' :: c :: splitCamelAux c rest
      else
        c :: splitCamelAux c rest

/-- `split_camel_case` (normalize.rs:77): insert hyphens at camel-case word
boundaries; the first character never gets a hyphen. -/
def split_camel_case : List Char → List Char
  | [] => []
  | c :: rest => c :: splitCamelAux c rest

/-- The loop behind both `RE_SPACES.replace_all(_, " ")` and
`RE_HYPHENS.replace_all(_, "-")`: each maximal run of characters satisfying
`p` is replaced by the single character `rep`.  `inRun` records whether the
previous character satisfied `p`. -/
def collapseRunsByAux (p : Char → Bool) (rep : Char) (inRun : Bool) :
    List Char → List Char
  | [] => []
  | c :: rest =>
      if p c then
        if inRun then collapseRunsByAux p rep true rest
        else rep :: collapseRunsByAux p rep true rest
      else c :: collapseRunsByAux p rep false rest

/-- Replace each maximal run of characters satisfying `p` by `rep`. -/
def collapseRunsBy (p : Char → Bool) (rep : Char) (l : List Char) : List Char :=
  collapseRunsByAux p rep false l

/-- Drop the longest prefix of characters satisfying `p` (`str::trim_start` /
the leading half of `trim_matches`). -/
def trimLeftBy (p : Char → Bool) (l : List Char) : List Char :=
  l.dropWhile p

/-- Drop the longest suffix of characters satisfying `p`. -/
def trimRightBy (p : Char → Bool) (l : List Char) : List Char :=
  (l.reverse.dropWhile p).reverse

/-- Drop the longest prefix and suffix of characters satisfying `p`
(`str::trim` for `Char.isWhitespace`, `trim_matches` for explicit sets). -/
def trimBy (p : Char → Bool) (l : List Char) : List Char :=
  trimRightBy p (trimLeftBy p l)

/-- Is the character a space or a hyphen (the `trim_matches` closure on
normalize.rs:35)? -/
def isSpaceOrHyphen (c : Char) : Bool := c == ' ' || c == '-'

/-- `normalize_activity` (normalize.rs:13) on the character list: trim; empty
maps to empty; collapse repeated characters; split camel case; lowercase;
collapse whitespace runs to one space and hyphen runs to one hyphen; strip
leading/trailing spaces and hyphens. -/
def normalize_activity_chars (raw : List Char) : List Char :=
  let trimmed := trimBy Char.isWhitespace raw
  if trimmed.isEmpty then []
  else
    let collapsed := collapse_repeated_chars trimmed
    let hyphenated := split_camel_case collapsed
    let lowercased := hyphenated.map Char.toLower
    let normalized_spaces := collapseRunsBy Char.isWhitespace ' ' lowercased
    let normalized_hyphens := collapseRunsBy (fun c => c == '-') '-' normalized_spaces
    trimBy isSpaceOrHyphen normalized_hyphens

/-- `normalize_activity` on `String`s, the canonicalizer `canonicalize` of
the spec. -/
def normalize_activity (raw : String) : String :=
  ⟨normalize_activity_chars raw.data⟩

example : normalize_activity "workkkkkkk" = "work" := by decide
example : normalize_activity "schoool" = "school" := by decide
example : normalize_activity "boring workkkk" = "boring work" := by decide
example : normalize_activity "WorkSchool" = "work-school" := by decide
example : normalize_activity "workSchool" = "work-school" := by decide
example : normalize_activity "MyAppDev" = "my-app-dev" := by decide
example : normalize_activity "WORK" = "work" := by decide
example : normalize_activity "  work  " = "work" := by decide
example : normalize_activity "work-School" = "work-school" := by decide
example : normalize_activity "" = "" := by decide
example : normalize_activity "   " = "" := by decide
example : normalize_activity "aaa" = "aa" := by decide
example : normalize_activity "aabbcc" = "aabbcc" := by decide
example : normalize_activity "aaabbbccc" = "aabbcc" := by decide

/-! ## Ledger store (`src/db.rs`)

Each sql table is a list of rows in rowid (= insertion) order; the
autoincrement counters are explicit fields.  Timestamps are `Int` seconds
in the reference timezone. -/

/-- A row of the `sessions` table (db.rs:86). -/
structure SessionRow where
  id : Nat
  user_id : String
  username : String
  activity : String
  started_at : Int
  ended_at : Option Int
  minutes : Option Int
deriving DecidableEq

/-- A row of the `weekly_archive` table (db.rs:100). -/
structure WeeklyArchiveRow where
  id : Nat
  user_id : String
  username : String
  week_label : String
  total_min : Int
deriving DecidableEq

/-- A row of the `activity_archive` table (db.rs:112). -/
structure ActivityArchiveRow where
  id : Nat
  user_id : String
  username : String
  week_label : String
  activity : String
  total_min : Int
deriving DecidableEq

/-- The durable store: the three tables the core mutates. -/
structure Store where
  sessions : List SessionRow
  weekly_archive : List WeeklyArchiveRow
  activity_archive : List ActivityArchiveRow
  next_session_id : Nat
  next_weekly_id : Nat
  next_activity_id : Nat
deriving DecidableEq

/-- The freshly created store (empty tables). -/
def Store.empty : Store := ⟨[], [], [], 0, 0, 0⟩

/-- `WHERE user_id = $1 AND ended_at IS NULL` — the open-session predicate. -/
def isOpenFor (u : String) (r : SessionRow) : Bool :=
  r.user_id == u && r.ended_at.isNone

/-- `clock_in` (db.rs:172): fail when the user already has an open session
(`SELECT COUNT(*) ... WHERE user_id = $1 AND ended_at IS NULL` positive),
otherwise insert one open session starting now. -/
def clock_in (now : Int) (user_id username activity : String) (st : Store) :
    Except String Store :=
  if st.sessions.any (isOpenFor user_id) then
    .error "already clocked in"
  else
    .ok { st with
      sessions := st.sessions ++
        [⟨st.next_session_id, user_id, username, activity, now, none, none⟩],
      next_session_id := st.next_session_id + 1 }

/-- `clock_out` (db.rs:198): take the user's open session (the first row the
store returns), fail when there is none; otherwise compute the elapsed
minutes as `(now - started).num_minutes()` (truncated division by 60),
write `ended_at` and `minutes` on that row by id, and return
`(minutes, activity)`. -/
def clock_out (now : Int) (user_id : String) (st : Store) :
    Except String (Store × Int × String) :=
  match st.sessions.find? (isOpenFor user_id) with
  | none => .error "not clocked in"
  | some r =>
      let m : Int := (now - r.started_at).tdiv 60
      .ok ({ st with
        sessions := st.sessions.map fun s =>
          if s.id == r.id then { s with ended_at := some now, minutes := some m }
          else s }, m, r.activity)

/-- First-occurrence deduplication (`GROUP BY` key collection): keep each key
the first time it appears, skipping keys already in `seen`. -/
def dedupFirstAux {α : Type} [DecidableEq α] (seen : List α) : List α → List α
  | [] => []
  | x :: xs =>
      if x ∈ seen then dedupFirstAux seen xs
      else x :: dedupFirstAux (x :: seen) xs

/-- The distinct keys of a list, in order of first appearance. -/
def dedupFirst {α : Type} [DecidableEq α] (l : List α) : List α :=
  dedupFirstAux [] l

/-- `SUM(minutes)` over session rows (sql `SUM` ignores `NULL`). -/
def sumMinutes (rows : List SessionRow) : Int :=
  (rows.map fun r => r.minutes.getD 0).sum

/-- `MAX(username)` over session rows. -/
def maxUsername (rows : List SessionRow) : String :=
  (rows.map (·.username)).foldl max ""

/-- `WHERE ended_at IS NOT NULL` — the closed sessions of the store. -/
def closedSessions (st : Store) : List SessionRow :=
  st.sessions.filter fun r => r.ended_at.isSome

/-- The rows `INSERT INTO weekly_archive ... SELECT user_id, MAX(username),
$1, SUM(minutes) FROM sessions WHERE ended_at IS NOT NULL GROUP BY user_id`
produces (db.rs:287–294): one row per distinct user of the closed sessions
(`nid` is the autoincrement position of the first new row).  There is no
filter on the week a session started in. -/
def weeklyInsertRows (week_label : String) (nid : Nat)
    (closed : List SessionRow) : List WeeklyArchiveRow :=
  (dedupFirst (closed.map (·.user_id))).enum.map fun p =>
    { id := nid + p.1, user_id := p.2,
      username := maxUsername (closed.filter fun r => r.user_id == p.2),
      week_label := week_label,
      total_min := sumMinutes (closed.filter fun r => r.user_id == p.2) }

/-- The rows the `activity_archive` insert produces (db.rs:296–303): one row
per distinct `(user_id, activity)` pair of the closed sessions. -/
def activityInsertRows (week_label : String) (nid : Nat)
    (closed : List SessionRow) : List ActivityArchiveRow :=
  (dedupFirst (closed.map fun r => (r.user_id, r.activity))).enum.map fun p =>
    { id := nid + p.1, user_id := p.2.1,
      username := maxUsername (closed.filter fun r =>
        r.user_id == p.2.1 && r.activity == p.2.2),
      week_label := week_label, activity := p.2.2,
      total_min := sumMinutes (closed.filter fun r =>
        r.user_id == p.2.1 && r.activity == p.2.2) }

/-- `archive_week` (db.rs:286).  Three statements, in order: insert the
per-user weekly rows, insert the per-`(user, activity)` rows, then
`DELETE FROM sessions WHERE ended_at IS NOT NULL`. -/
def archive_week (week_label : String) (st : Store) : Store :=
  let closed := closedSessions st
  let newWeekly := weeklyInsertRows week_label st.next_weekly_id closed
  let newActivity := activityInsertRows week_label st.next_activity_id closed
  { st with
    sessions := st.sessions.filter fun r => r.ended_at.isNone,
    weekly_archive := st.weekly_archive ++ newWeekly,
    activity_archive := st.activity_archive ++ newActivity,
    next_weekly_id := st.next_weekly_id + newWeekly.length,
    next_activity_id := st.next_activity_id + newActivity.length }

/-- The `(user_id, week_label, activity)` group predicate of the rename
merge (`WHERE user_id = $1 AND week_label = $2 AND activity = $3`). -/
def groupP (u act w : String) (r : ActivityArchiveRow) : Bool :=
  r.user_id == u && r.week_label == w && r.activity == act

/-- The `ORDER BY id ASC` comparison on archive rows. -/
def idLe (a b : ActivityArchiveRow) : Prop := a.id ≤ b.id

instance : DecidableRel idLe := fun a b => Nat.decLe a.id b.id

instance : IsTotal ActivityArchiveRow idLe := ⟨fun a b => Nat.le_total a.id b.id⟩

instance : IsTrans ActivityArchiveRow idLe :=
  ⟨fun _ _ _ h1 h2 => Nat.le_trans h1 h2⟩

/-- `ORDER BY id ASC` on archive rows. -/
def sortById (rows : List ActivityArchiveRow) : List ActivityArchiveRow :=
  rows.insertionSort idLe

/-- `UPDATE activity_archive SET total_min = $1 WHERE id = $2` (db.rs:665). -/
def updateTotalById (i : Nat) (t : Int) (rows : List ActivityArchiveRow) :
    List ActivityArchiveRow :=
  rows.map fun r => if r.id == i then { r with total_min := t } else r

/-- The delete loop of the merge (db.rs:671–678): one
`DELETE FROM activity_archive WHERE id = $1` per remaining group row. -/
def deleteByIds (os : List ActivityArchiveRow)
    (rows : List ActivityArchiveRow) : List ActivityArchiveRow :=
  os.foldl (fun acc o => acc.filter fun r => r.id ≠ o.id) rows

/-- One iteration of the rename merge loop (db.rs:645): fetch the group for
one `(user, week_label, activity)` key ordered by id, and when it has more
than one row, set the first (lowest-id) row's `total_min` to the group's
sum and delete the remaining rows, counting each deletion. -/
def mergeGroup (u act w : String) (rows : List ActivityArchiveRow) :
    List ActivityArchiveRow × Nat :=
  match sortById (rows.filter (groupP u act w)) with
  | [] => (rows, 0)
  | keep :: others =>
      if others.isEmpty then (rows, 0)
      else
        (deleteByIds others
          (updateTotalById keep.id
            (((keep :: others).map (·.total_min)).sum) rows),
         others.length)

/-- One step of the rename merge loop over the colliding week labels
(db.rs:645–680): merge the group of one label and add its deletions to the
running `archive_rows_merged` count. -/
def mergeStep (u act : String) (acc : List ActivityArchiveRow × Nat)
    (w : String) : List ActivityArchiveRow × Nat :=
  let r := mergeGroup u act w acc.1
  (r.1, acc.2 + r.2)

/-- The dupes query of the rename merge (db.rs:631): the week labels of the
user's rows under the target activity whose `(user, week_label, activity)`
group holds more than one row (`GROUP BY ... HAVING COUNT(*) > 1`). -/
def dupeWeekLabels (u act : String) (rows : List ActivityArchiveRow) :
    List String :=
  (dedupFirst ((rows.filter fun r => r.user_id == u && r.activity == act).map
      (·.week_label))).filter
    fun w => 1 < rows.countP (groupP u act w)

/-- The first two mutating statements of `rename_activity` (db.rs:613–629):
relabel the user's sessions and archive rows from `old` to `new`.  Each
statement runs directly on the connection pool — this is the store a
concurrent reader observes between the relabel and the merge, and the store
left behind when the merge fails. -/
def rename_relabel_only (user_id old_activity new_activity : String)
    (st : Store) : Store :=
  { st with
    sessions := st.sessions.map fun r =>
      if r.user_id == user_id && r.activity == old_activity then
        { r with activity := new_activity }
      else r,
    activity_archive := st.activity_archive.map fun r =>
      if r.user_id == user_id && r.activity == old_activity then
        { r with activity := new_activity }
      else r }

/-- `rename_activity` (db.rs:585): fail when the user has neither sessions
nor archive rows under `old_activity`; otherwise relabel both tables
(`sessions_updated` = rows the session update matched), then merge every
colliding `(user, week_label, new_activity)` archive group, keeping the
lowest-id row with the summed total and deleting the rest
(`archive_rows_merged` = rows deleted). -/
def rename_activity (user_id old_activity new_activity : String) (st : Store) :
    Except String (Store × Nat × Nat) :=
  let has_sessions := st.sessions.countP fun r =>
    r.user_id == user_id && r.activity == old_activity
  let has_archive := st.activity_archive.countP fun r =>
    r.user_id == user_id && r.activity == old_activity
  if has_sessions = 0 ∧ has_archive = 0 then
    .error "no sessions found with that activity"
  else
    let mid := rename_relabel_only user_id old_activity new_activity st
    let labels := dupeWeekLabels user_id new_activity mid.activity_archive
    let merged := labels.foldl (mergeStep user_id new_activity)
      (mid.activity_archive, 0)
    .ok ({ mid with activity_archive := merged.1 }, has_sessions, merged.2)

/-! ## Command layer (`src/commands.rs`) -/

/-- Rust `str::trim`: drop surrounding whitespace. -/
def strTrim (s : String) : String :=
  ⟨trimBy Char.isWhitespace s.data⟩

/-- The clock-in guard of `handle_command` (commands.rs:39–48): the argument
after `in ` is trimmed; an empty argument is rejected (`none`); otherwise
the activity stored is its normalization. -/
def clock_in_command_activity (arg : String) : Option String :=
  let activity := strTrim arg
  if activity.data.isEmpty then none
  else some (normalize_activity activity)

/-- Command-layer clock-in (commands.rs:39–48 followed by
`handle_clock_in` → `db.clock_in`): reject an empty trimmed argument,
otherwise store the normalized activity. -/
def cmd_clock_in (now : Int) (user_id username arg : String) (st : Store) :
    Except String Store :=
  match clock_in_command_activity arg with
  | none => .error "empty activity"
  | some activity => clock_in now user_id username activity st

/-! ## Claim C1 — idempotence of the canonicalizer -/

/-- Claim C1: the spec requires `canonicalize(canonicalize(x)) ==
canonicalize(x)` for all strings `x`.  The code violates it: run collapsing
happens before lowercasing, so `"Aaa"` (run lengths 1 and 2) passes the
collapse untouched and lowercases to `"aaa"`, which a second application
collapses to `"aa"`. -/
theorem normalize_activity_not_idempotent :
    normalize_activity "Aaa" = "aaa" ∧
    normalize_activity (normalize_activity "Aaa") = "aa" ∧
    normalize_activity (normalize_activity "Aaa") ≠ normalize_activity "Aaa" := by
  decide

/-! ## Claim C7 — the empty-canonical-label guard -/

/-- Claim C7: the command layer checks emptiness on the raw trimmed argument
and only then normalizes (commands.rs:40–47), so the raw input `"-"` passes
the guard while its canonical form is the empty string, and an open session
with an empty activity label is stored. -/
theorem clock_in_command_stores_empty_label :
    (strTrim "-").data.isEmpty = false ∧
    clock_in_command_activity "-" = some "" ∧
    cmd_clock_in 0 "u" "name" "-" Store.empty =
      .ok { sessions := [⟨0, "u", "name", "", 0, none, none⟩],
            weekly_archive := [], activity_archive := [],
            next_session_id := 1, next_weekly_id := 0, next_activity_id := 0 } := by
  decide

/-! ## Claim C8 — the run-collapsing boundary -/

/-- The scanning loop of `collapse_repeated_chars` consumes a whole pending
run: `m` further copies of `c` on top of the `k` already counted emit
`collapseRun c (k + m)` and the scan restarts on the rest. -/
theorem collapseAux_replicate_append (c : Char) (m : Nat) :
    ∀ (k : Nat) (rest : List Char), rest.head? ≠ some c →
      collapseAux c k (List.replicate m c ++ rest) =
        collapseRun c (k + m) ++ collapse_repeated_chars rest := by
  induction m with
  | zero =>
      intro k rest h
      cases rest with
      | nil => simp [collapseAux, collapse_repeated_chars]
      | cons x xs =>
          have hx : x ≠ c := by simpa using h
          simp [collapseAux, hx, collapse_repeated_chars]
  | succ m ih =>
      intro k rest h
      rw [List.replicate_succ, List.cons_append]
      have h1 : collapseAux c k (c :: (List.replicate m c ++ rest)) =
          collapseAux c (k + 1) (List.replicate m c ++ rest) := by
        simp [collapseAux]
      rw [h1, ih (k + 1) rest h]
      have h2 : k + 1 + m = k + (m + 1) := by omega
      rw [h2]

/-- Claim C8: every maximal run of an identical character is collapsed with
the exact 1–2 / 3 / ≥4 boundary of the source — a run of length `n` at the
front of the input (maximal because the rest does not continue it) emits
`collapseRun c n`, which keeps runs of length 1–2 verbatim, shortens a run
of exactly 3 to 2, and shortens a run of length ≥ 4 to 1; the canonicalizer
therefore maps `"aaa"` to `"aa"`, `"aaaa"` to `"a"` and keeps `"aa"`. -/
theorem collapse_run_boundary (c : Char) (n : Nat) (rest : List Char)
    (hn : 1 ≤ n) (hrest : rest.head? ≠ some c) :
    collapse_repeated_chars (List.replicate n c ++ rest) =
      collapseRun c n ++ collapse_repeated_chars rest ∧
    (n ≤ 2 → collapseRun c n = List.replicate n c) ∧
    (n = 3 → collapseRun c n = [c, c]) ∧
    (4 ≤ n → collapseRun c n = [c]) ∧
    normalize_activity "aaa" = "aa" ∧
    normalize_activity "aaaa" = "a" ∧
    normalize_activity "aa" = "aa" := by
  refine ⟨?_, ?_, ?_, ?_, by decide, by decide, by decide⟩
  · obtain ⟨m, rfl⟩ : ∃ m, n = m + 1 := ⟨n - 1, by omega⟩
    rw [List.replicate_succ, List.cons_append]
    have h1 : collapse_repeated_chars (c :: (List.replicate m c ++ rest)) =
        collapseAux c 1 (List.replicate m c ++ rest) := rfl
    rw [h1, collapseAux_replicate_append c m 1 rest hrest]
    have h2 : 1 + m = m + 1 := by omega
    rw [h2]
  · intro h
    have h3 : n < 3 := by omega
    simp [collapseRun, h3]
  · intro h
    subst h
    simp [collapseRun]
  · intro h
    have h3 : ¬ n < 3 := by omega
    have h4 : n ≠ 3 := by omega
    simp [collapseRun, h3, h4]

/-- Witness for the run-collapsing boundary at the concrete run `"bbb"`
followed by `"a"`. -/
theorem collapse_run_boundary_witness :
    (1 ≤ 3 ∧ (['a'] : List Char).head? ≠ some 'b') ∧
    (collapse_repeated_chars (List.replicate 3 'b' ++ ['a']) =
        collapseRun 'b' 3 ++ collapse_repeated_chars ['a'] ∧
      (3 ≤ 2 → collapseRun 'b' 3 = List.replicate 3 'b') ∧
      (3 = 3 → collapseRun 'b' 3 = ['b', 'b']) ∧
      (4 ≤ 3 → collapseRun 'b' 3 = ['b']) ∧
      normalize_activity "aaa" = "aa" ∧
      normalize_activity "aaaa" = "a" ∧
      normalize_activity "aa" = "aa") :=
  ⟨⟨by decide, by decide⟩, collapse_run_boundary 'b' 3 ['a'] (by decide) (by decide)⟩

/-! ## Claim C4 — (non-)atomicity of the rename transaction -/

/-- A store of the kind the rename-conservation test builds: one closed
session and two archive rows whose labels collide after the rename. -/
def atomStore : Store :=
  { sessions := [⟨0, "user123", "TestUser", "boring work", 0, some 60, some 1⟩],
    weekly_archive := [],
    activity_archive :=
      [⟨0, "user123", "TestUser", "KW07/2026", "work", 60⟩,
       ⟨1, "user123", "TestUser", "KW07/2026", "boring work", 30⟩],
    next_session_id := 1, next_weekly_id := 0, next_activity_id := 2 }

/-- The store `rename_activity` leaves behind on `atomStore`. -/
def atomStoreFinal : Store :=
  { sessions := [⟨0, "user123", "TestUser", "work", 0, some 60, some 1⟩],
    weekly_archive := [],
    activity_archive := [⟨0, "user123", "TestUser", "KW07/2026", "work", 90⟩],
    next_session_id := 1, next_weekly_id := 0, next_activity_id := 2 }

/-- Claim C4: the relabel and the merge of `rename_activity` are separate
statements on the connection pool, not one transaction.  After the two
relabel updates and before the merge the store holds the renamed session
*and* two un-merged colliding archive rows — a state distinct from both the
initial and the final store, observable by a reader and left behind for
good when the merge step fails. -/
theorem rename_activity_not_atomic :
    (rename_relabel_only "user123" "boring work" "work" atomStore).sessions.map
        (·.activity) = ["work"] ∧
    (rename_relabel_only "user123" "boring work" "work" atomStore).activity_archive.countP
        (groupP "user123" "work" "KW07/2026") = 2 ∧
    rename_relabel_only "user123" "boring work" "work" atomStore ≠ atomStore ∧
    rename_activity "user123" "boring work" "work" atomStore =
      .ok (atomStoreFinal, 1, 1) ∧
    rename_relabel_only "user123" "boring work" "work" atomStore ≠ atomStoreFinal := by
  decide

/-! ## Grouping lemmas shared by the rollup and rename proofs -/

theorem dedupFirstAux_cons {α : Type} [DecidableEq α] (seen : List α) (x : α)
    (xs : List α) :
    dedupFirstAux seen (x :: xs) =
      if x ∈ seen then dedupFirstAux seen xs
      else x :: dedupFirstAux (x :: seen) xs := rfl

theorem mem_dedupFirstAux {α : Type} [DecidableEq α] (a : α) :
    ∀ (l seen : List α), a ∈ dedupFirstAux seen l ↔ a ∈ l ∧ a ∉ seen := by
  intro l
  induction l with
  | nil => intro seen; simp [dedupFirstAux]
  | cons x xs ih =>
      intro seen
      rw [dedupFirstAux_cons]
      by_cases hx : x ∈ seen
      · rw [if_pos hx, ih seen]
        constructor
        · rintro ⟨h1, h2⟩
          exact ⟨List.mem_cons_of_mem _ h1, h2⟩
        · rintro ⟨h1, h2⟩
          rcases List.mem_cons.mp h1 with rfl | h1
          · exact absurd hx h2
          · exact ⟨h1, h2⟩
      · rw [if_neg hx]
        constructor
        · intro h
          rcases List.mem_cons.mp h with rfl | h
          · exact ⟨List.mem_cons_self _ _, hx⟩
          · obtain ⟨h1, h2⟩ := (ih (x :: seen)).mp h
            exact ⟨List.mem_cons_of_mem _ h1,
              fun hs => h2 (List.mem_cons_of_mem _ hs)⟩
        · rintro ⟨h1, h2⟩
          rcases List.mem_cons.mp h1 with rfl | h1
          · exact List.mem_cons_self _ _
          · by_cases hax : a = x
            · subst hax
              exact List.mem_cons_self _ _
            · refine List.mem_cons_of_mem _ ((ih (x :: seen)).mpr ⟨h1, ?_⟩)
              intro hs
              rcases List.mem_cons.mp hs with h | h
              · exact hax h
              · exact h2 h

theorem nodup_dedupFirstAux {α : Type} [DecidableEq α] :
    ∀ (l seen : List α), (dedupFirstAux seen l).Nodup := by
  intro l
  induction l with
  | nil => intro seen; simp [dedupFirstAux]
  | cons x xs ih =>
      intro seen
      rw [dedupFirstAux_cons]
      by_cases hx : x ∈ seen
      · rw [if_pos hx]
        exact ih seen
      · rw [if_neg hx]
        refine List.nodup_cons.mpr ⟨fun hmem => ?_, ih (x :: seen)⟩
        exact ((mem_dedupFirstAux x xs (x :: seen)).mp hmem).2
          (List.mem_cons_self x seen)

theorem mem_dedupFirst {α : Type} [DecidableEq α] (a : α) (l : List α) :
    a ∈ dedupFirst l ↔ a ∈ l := by
  simp [dedupFirst, mem_dedupFirstAux]

theorem nodup_dedupFirst {α : Type} [DecidableEq α] (l : List α) :
    (dedupFirst l).Nodup :=
  nodup_dedupFirstAux l []

theorem countP_eq_ite_of_nodup {α : Type} [DecidableEq α] (p : α → Bool) (a : α) :
    ∀ (l : List α), l.Nodup → (∀ x, p x = true ↔ x = a) →
      l.countP p = if a ∈ l then 1 else 0 := by
  intro l
  induction l with
  | nil => intro _ _; simp
  | cons x xs ih =>
      intro hnd hp
      have hxs := ih (List.nodup_cons.mp hnd).2 hp
      by_cases hxa : x = a
      · subst hxa
        have hnotin : x ∉ xs := (List.nodup_cons.mp hnd).1
        simp [List.countP_cons, hxs, hnotin, (hp x).mpr rfl]
      · have hpx : p x = false := by
          cases h : p x
          · rfl
          · exact absurd ((hp x).mp h) hxa
        have hax : ¬a = x := fun h => hxa h.symm
        simp [List.countP_cons, hxs, hpx, List.mem_cons, hax]

theorem sum_map_filter_add {α : Type} (f : α → Int) (p : α → Bool) :
    ∀ l : List α,
      ((l.filter p).map f).sum + ((l.filter fun a => !p a).map f).sum
        = (l.map f).sum := by
  intro l
  induction l with
  | nil => simp
  | cons x xs ih =>
      cases h : p x <;>
        simp [List.filter_cons, h, List.sum_cons, ← ih] <;> ring

theorem filter_and_of_imp {α : Type} (p q : α → Bool) :
    ∀ l : List α, (∀ a ∈ l, p a = true → q a = true) →
      (l.filter fun a => p a && q a) = l.filter p := by
  intro l
  induction l with
  | nil => intro _; rfl
  | cons x xs ih =>
      intro h
      have hxs := ih fun a ha => h a (List.mem_cons_of_mem _ ha)
      cases hq : p x
      · simp [List.filter_cons, hq, hxs]
      · simp [List.filter_cons, hq, h x (List.mem_cons_self x xs) hq, hxs]

theorem sum_filter_partition {α β : Type} [DecidableEq β] [BEq β] [LawfulBEq β]
    (key : α → β) (f : α → Int) :
    ∀ (keys : List β) (rows : List α), keys.Nodup →
      (∀ r ∈ rows, key r ∈ keys) →
      (keys.map fun k => ((rows.filter fun r => key r == k).map f).sum).sum
        = (rows.map f).sum := by
  intro keys
  induction keys with
  | nil =>
      intro rows _ hcov
      cases rows with
      | nil => simp
      | cons r rs => exact absurd (hcov r (List.mem_cons_self r rs)) (by simp)
  | cons k ks ih =>
      intro rows hnd hcov
      have hnd' := (List.nodup_cons.mp hnd).2
      have hknot := (List.nodup_cons.mp hnd).1
      have hstep : ∀ k' ∈ ks,
          ((rows.filter fun r => !(key r == k)).filter fun r => key r == k')
            = rows.filter fun r => key r == k' := by
        intro k' hk'
        rw [List.filter_filter]
        refine filter_and_of_imp _ _ rows fun a _ hq => ?_
        have ha : key a = k' := by simpa using hq
        have hne : k' ≠ k := fun h => hknot (h ▸ hk')
        simp [ha, hne]
      have hcov' : ∀ r ∈ rows.filter fun r => !(key r == k), key r ∈ ks := by
        intro r hr
        have h1 := List.mem_filter.mp hr
        have h2 := hcov r h1.1
        rcases List.mem_cons.mp h2 with h | h
        · have hne : key r ≠ k := by simpa using h1.2
          exact absurd h hne
        · exact h
      have ihx := ih (rows.filter fun r => !(key r == k)) hnd' hcov'
      calc ((k :: ks).map fun k' =>
              ((rows.filter fun r => key r == k').map f).sum).sum
          = ((rows.filter fun r => key r == k).map f).sum
            + (ks.map fun k' =>
                ((rows.filter fun r => key r == k').map f).sum).sum := by
            simp
        _ = ((rows.filter fun r => key r == k).map f).sum
            + (ks.map fun k' =>
                (((rows.filter fun r => !(key r == k)).filter
                    fun r => key r == k').map f).sum).sum := by
            congr 1
            refine congrArg List.sum (List.map_congr_left fun k' hk' => ?_)
            rw [hstep k' hk']
        _ = ((rows.filter fun r => key r == k).map f).sum
            + (((rows.filter fun r => !(key r == k)).map f).sum) := by rw [ihx]
        _ = (rows.map f).sum := sum_map_filter_add f _ rows

theorem map_enumFrom_snd {α β : Type} (h : α → β) :
    ∀ (n : Nat) (l : List α),
      (List.enumFrom n l).map (fun p => h p.2) = l.map h := by
  intro n l
  induction l generalizing n with
  | nil => rfl
  | cons x xs ih => simp [List.enumFrom, ih]

theorem countP_enumFrom_snd {α : Type} (p : α → Bool) :
    ∀ (n : Nat) (l : List α),
      (List.enumFrom n l).countP (fun q => p q.2) = l.countP p := by
  intro n l
  induction l generalizing n with
  | nil => rfl
  | cons x xs ih => simp [List.enumFrom, List.countP_cons, ih]

/-! ## Claims C2 and C9 — the weekly archive transition -/

/-- The aggregator's "current week" selection (`WHERE ended_at IS NOT NULL
AND started_at >= monday`, db.rs:248–251 and 363–365): the closed sessions
started at or after the most recent Monday 00:00. -/
def weekSessions (monday : Int) (st : Store) : List SessionRow :=
  st.sessions.filter fun r => r.ended_at.isSome && monday ≤ r.started_at

/-- A store holding one closed session from a previous week (started a week
before the current Monday, taken as instant 0). -/
def staleStore : Store :=
  { sessions := [⟨0, "u", "U", "work", -604800, some (-604500), some 5⟩],
    weekly_archive := [], activity_archive := [],
    next_session_id := 1, next_weekly_id := 0, next_activity_id := 0 }

/-- Counterexample to claim C2 as stated: `archive_week` has no filter on
the week a session started in — the closed sessions of the *current* week
(started at or after Monday = 0) sum to 0, yet the newly inserted
`weekly_archive` rows for this week's label sum to 5, the minutes of a
closed session of a previous week. -/
theorem archive_week_counterexample :
    sumMinutes (weekSessions 0 staleStore) = 0 ∧
    ((((archive_week "KW42/2025" staleStore).weekly_archive.drop
          staleStore.weekly_archive.length).filter
        fun r => r.week_label == "KW42/2025").map (·.total_min)).sum = 5 ∧
    (5 : Int) ≠ 0 := by
  decide

theorem weeklyInsertRows_sum (label : String) (nid : Nat)
    (closed : List SessionRow) :
    ((weeklyInsertRows label nid closed).map (·.total_min)).sum
      = sumMinutes closed := by
  rw [weeklyInsertRows, List.map_map]
  have h1 : List.map
      ((fun (r : WeeklyArchiveRow) => r.total_min) ∘ fun p =>
        ({ id := nid + p.1, user_id := p.2,
           username := maxUsername (closed.filter fun r => r.user_id == p.2),
           week_label := label,
           total_min := sumMinutes (closed.filter fun r => r.user_id == p.2) }
          : WeeklyArchiveRow))
      (dedupFirst (closed.map (·.user_id))).enum
      = (dedupFirst (closed.map (·.user_id))).map
          fun u => sumMinutes (closed.filter fun r => r.user_id == u) :=
    map_enumFrom_snd
      (fun u => sumMinutes (closed.filter fun r => r.user_id == u)) 0 _
  rw [h1]
  exact sum_filter_partition (·.user_id) (fun r => r.minutes.getD 0)
    _ closed (nodup_dedupFirst _)
    (fun r hr => (mem_dedupFirst _ _).mpr (List.mem_map_of_mem _ hr))

theorem weeklyInsertRows_countP (label : String) (nid : Nat)
    (closed : List SessionRow) (u : String) :
    (weeklyInsertRows label nid closed).countP (fun r => r.user_id == u)
      = if closed.any (fun s => s.user_id == u) then 1 else 0 := by
  rw [weeklyInsertRows, List.countP_map]
  have h1 : List.countP
      ((fun (r : WeeklyArchiveRow) => r.user_id == u) ∘ fun p =>
        ({ id := nid + p.1, user_id := p.2,
           username := maxUsername (closed.filter fun r => r.user_id == p.2),
           week_label := label,
           total_min := sumMinutes (closed.filter fun r => r.user_id == p.2) }
          : WeeklyArchiveRow))
      (dedupFirst (closed.map (·.user_id))).enum
      = (dedupFirst (closed.map (·.user_id))).countP fun x => x == u :=
    countP_enumFrom_snd (fun x => x == u) 0 _
  rw [h1, countP_eq_ite_of_nodup (fun x => x == u) u _ (nodup_dedupFirst _)
    (fun x => by simp)]
  by_cases hmem : u ∈ dedupFirst (closed.map (·.user_id))
  · have hany : closed.any (fun s => s.user_id == u) = true := by
      rw [List.any_eq_true]
      obtain ⟨s, hs, rfl⟩ := List.mem_map.mp ((mem_dedupFirst _ _).mp hmem)
      exact ⟨s, hs, by simp⟩
    rw [if_pos hmem, if_pos hany]
  · have hany : ¬closed.any (fun s => s.user_id == u) = true := by
      rw [List.any_eq_true]
      rintro ⟨s, hs, hsu⟩
      have he : s.user_id = u := by simpa using hsu
      exact hmem ((mem_dedupFirst _ _).mpr (List.mem_map.mpr ⟨s, hs, he⟩))
    rw [if_neg hmem, if_neg hany]

theorem weeklyInsertRows_mem (label : String) (nid : Nat)
    (closed : List SessionRow) :
    ∀ r ∈ weeklyInsertRows label nid closed,
      r.week_label = label ∧
      r.total_min = sumMinutes (closed.filter fun s =>
        s.user_id == r.user_id) := by
  intro r hr
  obtain ⟨p, _, rfl⟩ := List.mem_map.mp hr
  exact ⟨rfl, rfl⟩

theorem activityInsertRows_countP (label : String) (nid : Nat)
    (closed : List SessionRow) (u a : String) :
    (activityInsertRows label nid closed).countP
        (fun r => r.user_id == u && r.activity == a)
      = if closed.any (fun s => s.user_id == u && s.activity == a)
          then 1 else 0 := by
  rw [activityInsertRows, List.countP_map]
  have h1 : List.countP
      ((fun (r : ActivityArchiveRow) => r.user_id == u && r.activity == a)
        ∘ fun p =>
        ({ id := nid + p.1, user_id := p.2.1,
           username := maxUsername (closed.filter fun r =>
             r.user_id == p.2.1 && r.activity == p.2.2),
           week_label := label, activity := p.2.2,
           total_min := sumMinutes (closed.filter fun r =>
             r.user_id == p.2.1 && r.activity == p.2.2) }
          : ActivityArchiveRow))
      (dedupFirst (closed.map fun r => (r.user_id, r.activity))).enum
      = (dedupFirst (closed.map fun r => (r.user_id, r.activity))).countP
          fun x => x.1 == u && x.2 == a :=
    countP_enumFrom_snd (fun (x : String × String) => x.1 == u && x.2 == a) 0 _
  rw [h1, countP_eq_ite_of_nodup (fun x => x.1 == u && x.2 == a) (u, a) _
    (nodup_dedupFirst _) (fun x => by
      constructor
      · intro h
        have h1 := (Bool.and_eq_true _ _).mp h
        have e1 : x.1 = u := by simpa using h1.1
        have e2 : x.2 = a := by simpa using h1.2
        exact Prod.ext e1 e2
      · rintro rfl
        simp)]
  by_cases hmem : (u, a) ∈ dedupFirst (closed.map fun r =>
      (r.user_id, r.activity))
  · have hany : closed.any
        (fun s => s.user_id == u && s.activity == a) = true := by
      rw [List.any_eq_true]
      obtain ⟨s, hs, heq⟩ := List.mem_map.mp ((mem_dedupFirst _ _).mp hmem)
      have e1 : s.user_id = u := congrArg Prod.fst heq
      have e2 : s.activity = a := congrArg Prod.snd heq
      exact ⟨s, hs, by simp [e1, e2]⟩
    rw [if_pos hmem, if_pos hany]
  · have hany : ¬closed.any
        (fun s => s.user_id == u && s.activity == a) = true := by
      rw [List.any_eq_true]
      rintro ⟨s, hs, hsu⟩
      have h1 := (Bool.and_eq_true _ _).mp hsu
      have e1 : s.user_id = u := by simpa using h1.1
      have e2 : s.activity = a := by simpa using h1.2
      exact hmem ((mem_dedupFirst _ _).mpr
        (List.mem_map.mpr ⟨s, hs, by rw [e1, e2]⟩))
    rw [if_neg hmem, if_neg hany]

theorem activityInsertRows_mem (label : String) (nid : Nat)
    (closed : List SessionRow) :
    ∀ r ∈ activityInsertRows label nid closed,
      r.week_label = label ∧
      r.total_min = sumMinutes (closed.filter fun s =>
        s.user_id == r.user_id && s.activity == r.activity) := by
  intro r hr
  obtain ⟨p, _, rfl⟩ := List.mem_map.mp hr
  exact ⟨rfl, rfl⟩

/-- Claim C2 (amended): the archive transition inserts, for every user with
closed sessions — of any week, there is no week filter — exactly one
`weekly_archive` row whose `total_min` is the sum of that user's closed
sessions' minutes, and exactly one `activity_archive` row per
`(user, activity)` pair among the closed sessions; the newly inserted
weekly totals sum to the total minutes of all closed sessions, and the
transition then deletes every closed session. -/
theorem archive_week_spec (label : String) (st : Store) :
    (archive_week label st).sessions
        = st.sessions.filter (fun r => r.ended_at.isNone) ∧
    (archive_week label st).sessions.countP (fun r => r.ended_at.isSome) = 0 ∧
    (((archive_week label st).weekly_archive.drop
        st.weekly_archive.length).map (·.total_min)).sum
      = sumMinutes (closedSessions st) ∧
    (∀ u : String,
      ((archive_week label st).weekly_archive.drop
          st.weekly_archive.length).countP (fun r => r.user_id == u)
        = if (closedSessions st).any (fun s => s.user_id == u) then 1 else 0) ∧
    (∀ r ∈ (archive_week label st).weekly_archive.drop
        st.weekly_archive.length,
      r.week_label = label ∧
      r.total_min = sumMinutes
        ((closedSessions st).filter fun s => s.user_id == r.user_id)) ∧
    (∀ u a : String,
      ((archive_week label st).activity_archive.drop
          st.activity_archive.length).countP
          (fun r => r.user_id == u && r.activity == a)
        = if (closedSessions st).any
              (fun s => s.user_id == u && s.activity == a) then 1 else 0) ∧
    (∀ r ∈ (archive_week label st).activity_archive.drop
        st.activity_archive.length,
      r.week_label = label ∧
      r.total_min = sumMinutes
        ((closedSessions st).filter fun s =>
          s.user_id == r.user_id && s.activity == r.activity)) := by
  have hsess : (archive_week label st).sessions
      = st.sessions.filter (fun r => r.ended_at.isNone) := rfl
  have hdropw : (archive_week label st).weekly_archive.drop
      st.weekly_archive.length
      = weeklyInsertRows label st.next_weekly_id (closedSessions st) := by
    simp [archive_week, List.drop_left]
  have hdropa : (archive_week label st).activity_archive.drop
      st.activity_archive.length
      = activityInsertRows label st.next_activity_id (closedSessions st) := by
    simp [archive_week, List.drop_left]
  refine ⟨hsess, ?_, ?_, ?_, ?_, ?_, ?_⟩
  · rw [hsess, List.countP_eq_zero]
    intro r hr
    have h2 := (List.mem_filter.mp hr).2
    simp_all [Option.isSome_iff_exists, Option.isNone_iff_eq_none]
  · rw [hdropw]
    exact weeklyInsertRows_sum label _ _
  · intro u
    rw [hdropw]
    exact weeklyInsertRows_countP label _ _ u
  · intro r hr
    rw [hdropw] at hr
    exact weeklyInsertRows_mem label _ _ r hr
  · intro u a
    rw [hdropa]
    exact activityInsertRows_countP label _ _ u a
  · intro r hr
    rw [hdropa] at hr
    exact activityInsertRows_mem label _ _ r hr

/-- Claim C9: the archive transition deletes exactly the closed sessions —
the sessions table afterwards is the open-session sublist, unchanged, so
every session that was open before is still present, still open, and keeps
its start instant, user and activity. -/
theorem archive_week_open_continuity (label : String) (st : Store) :
    (archive_week label st).sessions
        = st.sessions.filter (fun r => r.ended_at.isNone) ∧
    ∀ r ∈ st.sessions, r.ended_at = none →
      r ∈ (archive_week label st).sessions := by
  refine ⟨rfl, ?_⟩
  intro r hr hopen
  exact List.mem_filter.mpr ⟨hr, by simp [hopen]⟩

/-! ## Claim C5 — the single-active-session invariant -/

/-- A user-initiated ledger mutation: a clock-in or a clock-out. -/
inductive ClockOp where
  | cin (now : Int) (user_id username activity : String)
  | cout (now : Int) (user_id : String)

/-- Apply one operation; a failed operation (its error branch) leaves the
store unchanged, exactly as the early-return paths of the handlers do. -/
def applyOp (st : Store) : ClockOp → Store
  | .cin t u n a =>
      match clock_in t u n a st with
      | .ok st' => st'
      | .error _ => st
  | .cout t u =>
      match clock_out t u st with
      | .ok r => r.1
      | .error _ => st

/-- Run a sequence of clock operations from the freshly created store. -/
def runOps (ops : List ClockOp) : Store :=
  ops.foldl applyOp Store.empty

/-- Every user has at most one open session. -/
def singleActive (st : Store) : Prop :=
  ∀ u : String, st.sessions.countP (isOpenFor u) ≤ 1

theorem countP_map_le_of_imp {α : Type} (p : α → Bool) (f : α → α) :
    ∀ l : List α, (∀ x ∈ l, p (f x) = true → p x = true) →
      (l.map f).countP p ≤ l.countP p := by
  intro l
  induction l with
  | nil => intro _; simp
  | cons x xs ih =>
      intro h
      have hxs := ih fun a ha => h a (List.mem_cons_of_mem _ ha)
      simp only [List.map_cons, List.countP_cons]
      by_cases hx : p (f x) = true
      · have hp := h x (List.mem_cons_self x xs) hx
        rw [if_pos hx, if_pos hp]
        omega
      · rw [if_neg hx]
        split <;> omega

theorem singleActive_clock_in (t : Int) (u n a : String) (st st' : Store)
    (h : clock_in t u n a st = .ok st') (hs : singleActive st) :
    singleActive st' := by
  by_cases hg : st.sessions.any (isOpenFor u)
  · simp [clock_in, hg] at h
  · have hst' : st'.sessions = st.sessions ++
        [⟨st.next_session_id, u, n, a, t, none, none⟩] := by
      simp only [clock_in, if_neg hg] at h
      cases h
      rfl
    intro u'
    rw [hst', List.countP_append]
    by_cases hu : u' = u
    · subst hu
      have hz : st.sessions.countP (isOpenFor u') = 0 := by
        rw [List.countP_eq_zero]
        intro r hr hpr
        exact hg (List.any_eq_true.mpr ⟨r, hr, hpr⟩)
      have hone : List.countP (isOpenFor u')
          [(⟨st.next_session_id, u', n, a, t, none, none⟩ : SessionRow)]
          ≤ 1 := by
        simp only [List.countP_cons, List.countP_nil]
        split <;> omega
      omega
    · have hrow : isOpenFor u'
          (⟨st.next_session_id, u, n, a, t, none, none⟩ : SessionRow)
          = false := by
        have hne : ¬(u = u') := fun h' => hu h'.symm
        simp [isOpenFor, hne]
      have h0 : List.countP (isOpenFor u')
          [(⟨st.next_session_id, u, n, a, t, none, none⟩ : SessionRow)]
          = 0 := by
        simp [List.countP_cons, hrow]
      rw [h0]
      have := hs u'
      omega

theorem singleActive_clock_out (t : Int) (u : String) (st st' : Store)
    (m : Int) (a : String) (h : clock_out t u st = .ok (st', m, a))
    (hs : singleActive st) : singleActive st' := by
  cases hfind : st.sessions.find? (isOpenFor u) with
  | none => simp [clock_out, hfind] at h
  | some r =>
      have hst' : st'.sessions = st.sessions.map fun s =>
          if s.id == r.id then
            { s with ended_at := some t,
                     minutes := some ((t - r.started_at).tdiv 60) }
          else s := by
        simp only [clock_out, hfind] at h
        cases h
        rfl
      intro u'
      rw [hst']
      refine le_trans (countP_map_le_of_imp (isOpenFor u') _ _ ?_) (hs u')
      intro x _ hx
      by_cases hid : (x.id == r.id) = true
      · rw [if_pos hid] at hx
        simp [isOpenFor] at hx
      · rw [if_neg hid] at hx
        exact hx

theorem singleActive_applyOp (st : Store) (op : ClockOp)
    (hs : singleActive st) : singleActive (applyOp st op) := by
  cases op with
  | cin t u n a =>
      cases h : clock_in t u n a st with
      | ok st' =>
          simpa [applyOp, h] using singleActive_clock_in t u n a st st' h hs
      | error e => simpa [applyOp, h] using hs
  | cout t u =>
      cases h : clock_out t u st with
      | ok r =>
          simpa [applyOp, h] using
            singleActive_clock_out t u st r.1 r.2.1 r.2.2 (by simpa using h) hs
      | error e => simpa [applyOp, h] using hs

/-- Claim C5: starting from the empty store, after any sequence of clock-in
and clock-out calls (failed calls leaving the store unchanged), every user
has at most one open session. -/
theorem single_active_invariant (ops : List ClockOp) :
    singleActive (runOps ops) := by
  have hgen : ∀ (l : List ClockOp) (st : Store), singleActive st →
      singleActive (l.foldl applyOp st) := by
    intro l
    induction l with
    | nil => intro st hs; exact hs
    | cons op l ih =>
        intro st hs
        exact ih (applyOp st op) (singleActive_applyOp st op hs)
  refine hgen ops Store.empty ?_
  intro u
  simp [Store.empty]

/-! ## Claim C6 — the clock-out contract and the clock round trip -/

/-- Claim C6: `clock_out` fails with the no-active-session error exactly
when the user has no open session; on success it returns the open session's
activity and the elapsed minutes `(now − start).num_minutes()` — the floor
of the elapsed time in minutes whenever `start ≤ now` — and writes the end
instant and minutes onto that row; and a clock-in of the canonicalized
activity `x` followed at `t2 ≥ t1` by a clock-out returns minutes ≥ 0 and
activity `canonicalize x`. -/
theorem clock_out_contract :
    (∀ (now : Int) (u : String) (st : Store),
      clock_out now u st = .error "not clocked in" ↔
        ¬∃ r ∈ st.sessions, isOpenFor u r = true) ∧
    (∀ (now : Int) (u : String) (st st' : Store) (m : Int) (a : String),
      clock_out now u st = .ok (st', m, a) →
        ∃ r ∈ st.sessions, isOpenFor u r = true ∧ a = r.activity ∧
          m = (now - r.started_at).tdiv 60 ∧
          st'.sessions = st.sessions.map (fun s =>
            if s.id == r.id then
              { s with ended_at := some now, minutes := some m }
            else s) ∧
          (r.started_at ≤ now →
            m = Int.fdiv (now - r.started_at) 60 ∧ 0 ≤ m)) ∧
    (∀ (t1 t2 : Int) (u name x : String) (st st1 : Store),
      clock_in t1 u name (normalize_activity x) st = .ok st1 → t1 ≤ t2 →
        ∃ (st2 : Store) (m : Int),
          clock_out t2 u st1 = .ok (st2, m, normalize_activity x) ∧
          0 ≤ m) := by
  refine ⟨?_, ?_, ?_⟩
  · intro now u st
    cases hfind : st.sessions.find? (isOpenFor u) with
    | none =>
        simp only [clock_out, hfind]
        constructor
        · rintro - ⟨r, hr, hpr⟩
          exact absurd hpr (by
            simpa using List.find?_eq_none.mp hfind r hr)
        · intro _
          trivial
    | some r =>
        simp only [clock_out, hfind]
        constructor
        · intro h; cases h
        · intro h
          exact absurd ⟨r, List.mem_of_find?_eq_some hfind,
            List.find?_some hfind⟩ h
  · intro now u st st' m a h
    cases hfind : st.sessions.find? (isOpenFor u) with
    | none => simp [clock_out, hfind] at h
    | some r =>
        simp only [clock_out, hfind, Except.ok.injEq, Prod.mk.injEq] at h
        obtain ⟨hst, hm, ha⟩ := h
        refine ⟨r, List.mem_of_find?_eq_some hfind, List.find?_some hfind,
          ha.symm, hm.symm, ?_, ?_⟩
        · rw [← hst, ← hm]
        · intro hle
          have hnn : (0 : Int) ≤ now - r.started_at := by omega
          constructor
          · rw [← hm, Int.tdiv_eq_ediv hnn (by norm_num),
              Int.fdiv_eq_ediv _ (by norm_num)]
          · rw [← hm]
            exact Int.tdiv_nonneg hnn (by norm_num)
  · intro t1 t2 u name x st st1 h hle
    by_cases hg : st.sessions.any (isOpenFor u)
    · simp [clock_in, hg] at h
    · have hst1 : st1.sessions = st.sessions ++
          [⟨st.next_session_id, u, name, normalize_activity x, t1,
            none, none⟩] := by
        simp only [clock_in, if_neg hg] at h
        cases h
        rfl
      have hnone : st.sessions.find? (isOpenFor u) = none := by
        rw [List.find?_eq_none]
        intro r hr hpr
        exact hg (List.any_eq_true.mpr ⟨r, hr, hpr⟩)
      have hrow : isOpenFor u
          (⟨st.next_session_id, u, name, normalize_activity x, t1,
            none, none⟩ : SessionRow) = true := by
        simp [isOpenFor]
      have hfind : st1.sessions.find? (isOpenFor u) =
          some ⟨st.next_session_id, u, name, normalize_activity x, t1,
            none, none⟩ := by
        rw [hst1, List.find?_append, hnone, Option.none_or,
          List.find?_cons_of_pos _ hrow]
      refine ⟨{ st1 with sessions := st1.sessions.map fun s =>
          if s.id == st.next_session_id then
            { s with ended_at := some t2,
                     minutes := some ((t2 - t1).tdiv 60) }
          else s }, (t2 - t1).tdiv 60, ?_, ?_⟩
      · simp only [clock_out, hfind]
      · exact Int.tdiv_nonneg (by omega) (by norm_num)

/-! ## Claim C10 — shape invariants of the canonicalizer's output -/

theorem char_isUpper_iff (c : Char) :
    c.isUpper = true ↔ 65 ≤ c.toNat ∧ c.toNat ≤ 90 := by
  simp only [Char.isUpper, Bool.and_eq_true, decide_eq_true_eq, ge_iff_le,
    UInt32.le_def, BitVec.le_def]
  exact Iff.rfl

theorem char_toNat_toLower (c : Char) (h : 65 ≤ c.toNat ∧ c.toNat ≤ 90) :
    (Char.toLower c).toNat = c.toNat + 32 := by
  simp only [Char.toLower]
  rw [if_pos ⟨h.1, h.2⟩]
  have hv : (c.toNat + 32).isValidChar := Or.inl (by omega)
  rw [Char.ofNat, dif_pos hv]
  rfl

theorem char_toLower_eq_self (c : Char) (h : ¬(65 ≤ c.toNat ∧ c.toNat ≤ 90)) :
    Char.toLower c = c := by
  simp only [Char.toLower]
  rw [if_neg (by omega)]

/-- Rust `char::to_lowercase` never yields an uppercase character (ASCII
model). -/
theorem char_toLower_not_upper (c : Char) :
    (Char.toLower c).isUpper = false := by
  by_cases h : 65 ≤ c.toNat ∧ c.toNat ≤ 90
  · have ht := char_toNat_toLower c h
    cases hu : (Char.toLower c).isUpper
    · rfl
    · have := (char_isUpper_iff _).mp hu
      omega
  · rw [char_toLower_eq_self c h]
    cases hu : c.isUpper
    · rfl
    · have := (char_isUpper_iff _).mp hu
      omega

theorem mem_collapseRunsByAux (p : Char → Bool) (rep : Char) (c : Char) :
    ∀ (l : List Char) (b : Bool),
      c ∈ collapseRunsByAux p rep b l → c = rep ∨ c ∈ l := by
  intro l
  induction l with
  | nil => intro b h; simp [collapseRunsByAux] at h
  | cons x xs ih =>
      intro b h
      rw [collapseRunsByAux] at h
      by_cases hx : p x = true
      · rw [if_pos hx] at h
        cases b with
        | true =>
            rcases ih true h with h' | h'
            · exact Or.inl h'
            · exact Or.inr (List.mem_cons_of_mem _ h')
        | false =>
            rcases List.mem_cons.mp h with rfl | h'
            · exact Or.inl rfl
            · rcases ih true h' with h'' | h''
              · exact Or.inl h''
              · exact Or.inr (List.mem_cons_of_mem _ h'')
      · rw [if_neg hx] at h
        rcases List.mem_cons.mp h with rfl | h'
        · exact Or.inr (List.mem_cons_self _ _)
        · rcases ih false h' with h'' | h''
          · exact Or.inl h''
          · exact Or.inr (List.mem_cons_of_mem _ h'')

theorem mem_trimBy (p : Char → Bool) (c : Char) (l : List Char)
    (h : c ∈ trimBy p l) : c ∈ l := by
  have h1 : c ∈ (trimLeftBy p l).reverse.dropWhile p := by
    simpa [trimBy, trimRightBy] using h
  have h2 : c ∈ (trimLeftBy p l).reverse :=
    (List.dropWhile_sublist p).subset h1
  have h3 : c ∈ trimLeftBy p l := by simpa using h2
  exact (List.dropWhile_sublist p).subset h3

/-- The head the run collapser emits while inside a run is never a
`p`-character: leading `p`-characters are consumed silently. -/
theorem head_collapseRunsByAux_true (p : Char → Bool) (rep : Char) :
    ∀ (l : List Char) (d : Char),
      (collapseRunsByAux p rep true l).head? = some d → p d = false := by
  intro l
  induction l with
  | nil => intro d h; simp [collapseRunsByAux] at h
  | cons x xs ih =>
      intro d h
      rw [collapseRunsByAux] at h
      by_cases hx : p x = true
      · rw [if_pos hx] at h
        exact ih d h
      · rw [if_neg hx] at h
        have hxd : x = d := by simpa using h
        subst hxd
        simpa using hx

/-- The head emitted outside a run is the replacement character or the head
of the input. -/
theorem head_collapseRunsByAux_false (p : Char → Bool) (rep : Char)
    (l : List Char) (d : Char)
    (h : (collapseRunsByAux p rep false l).head? = some d) :
    d = rep ∨ l.head? = some d := by
  cases l with
  | nil => simp [collapseRunsByAux] at h
  | cons x xs =>
      rw [collapseRunsByAux] at h
      by_cases hx : p x = true
      · rw [if_pos hx] at h
        have : rep = d := by simpa using h
        exact Or.inl this.symm
      · rw [if_neg hx] at h
        have hxd : x = d := by simpa using h
        subst hxd
        exact Or.inr rfl

/-- The run collapser leaves no two adjacent `p`-characters. -/
theorem chain_collapseRunsByAux (p : Char → Bool) (rep : Char) :
    ∀ (l : List Char) (b : Bool),
      List.Chain' (fun a c => ¬(p a = true ∧ p c = true))
        (collapseRunsByAux p rep b l) := by
  intro l
  induction l with
  | nil => intro b; simp [collapseRunsByAux]
  | cons x xs ih =>
      intro b
      rw [collapseRunsByAux]
      by_cases hx : p x = true
      · rw [if_pos hx]
        cases b with
        | true => exact ih true
        | false =>
            refine List.chain'_cons'.mpr ⟨?_, ih true⟩
            intro d hd
            intro ⟨_, hpd⟩
            rw [head_collapseRunsByAux_true p rep xs d hd] at hpd
            cases hpd
      · rw [if_neg hx]
        refine List.chain'_cons'.mpr ⟨?_, ih false⟩
        intro d _
        intro ⟨hpx, _⟩
        exact absurd hpx (by simpa using hx)

/-- The run collapser for class `p` preserves "no two adjacent
`q`-characters" when `p`-characters and the replacement are not
`q`-characters. -/
theorem chain_preserved_collapseRunsByAux (p q : Char → Bool) (rep : Char)
    (hrep : q rep = false) :
    ∀ (l : List Char) (b : Bool),
      List.Chain' (fun a c => ¬(q a = true ∧ q c = true)) l →
      List.Chain' (fun a c => ¬(q a = true ∧ q c = true))
        (collapseRunsByAux p rep b l) := by
  intro l
  induction l with
  | nil => intro b _; simp [collapseRunsByAux]
  | cons x xs ih =>
      intro b hch
      have hch' := (List.chain'_cons'.mp hch).2
      have hhd := (List.chain'_cons'.mp hch).1
      rw [collapseRunsByAux]
      by_cases hx : p x = true
      · rw [if_pos hx]
        cases b with
        | true => exact ih true hch'
        | false =>
            refine List.chain'_cons'.mpr ⟨?_, ih true hch'⟩
            intro d _
            intro ⟨hq1, _⟩
            rw [hrep] at hq1
            cases hq1
      · rw [if_neg hx]
        refine List.chain'_cons'.mpr ⟨?_, ih false hch'⟩
        intro d hd
        rcases head_collapseRunsByAux_false p rep xs d hd with rfl | hd'
        · intro ⟨_, hq2⟩
          rw [hrep] at hq2
          cases hq2
        · exact hhd d hd'

theorem trimRightBy_prefix_self (p : Char → Bool) (l : List Char) :
    trimRightBy p l <+: l := by
  have h1 : (trimRightBy p l).reverse <:+ l.reverse := by
    simpa [trimRightBy] using List.dropWhile_suffix p
  exact List.reverse_suffix.mp (by simpa using h1)

theorem chain_trimBy (R : Char → Char → Prop) (p : Char → Bool)
    (l : List Char) (h : List.Chain' R l) :
    List.Chain' R (trimBy p l) := by
  have h1 : List.Chain' R (trimLeftBy p l) :=
    h.suffix (by simpa [trimLeftBy] using List.dropWhile_suffix p)
  exact h1.prefix (trimRightBy_prefix_self p _)

theorem head_dropWhile_not (p : Char → Bool) :
    ∀ (l : List Char) (d : Char),
      (l.dropWhile p).head? = some d → p d = false := by
  intro l
  induction l with
  | nil => intro d h; simp at h
  | cons x xs ih =>
      intro d h
      rw [List.dropWhile_cons] at h
      by_cases hx : p x = true
      · rw [if_pos hx] at h
        exact ih d h
      · rw [if_neg hx] at h
        have hxd : x = d := by simpa using h
        subst hxd
        simpa using hx

theorem head_trimBy_not (p : Char → Bool) (l : List Char) (d : Char)
    (h : (trimBy p l).head? = some d) : p d = false := by
  obtain ⟨t, ht⟩ := trimRightBy_prefix_self p (trimLeftBy p l)
  have ht' : trimBy p l ++ t = trimLeftBy p l := ht
  cases hcase : trimBy p l with
  | nil => rw [hcase] at h; cases h
  | cons y ys =>
      rw [hcase] at h
      have hyd : y = d := by simpa using h
      subst hyd
      have hhd : (trimLeftBy p l).head? = some y := by
        rw [← ht', hcase]
        rfl
      exact head_dropWhile_not p l y hhd

theorem getLast_trimBy_not (p : Char → Bool) (l : List Char) (d : Char)
    (h : (trimBy p l).getLast? = some d) : p d = false := by
  have h1 : ((trimLeftBy p l).reverse.dropWhile p).head? = some d := by
    have h2 : (trimBy p l).getLast?
        = ((trimLeftBy p l).reverse.dropWhile p).reverse.getLast? := rfl
    rw [h2] at h
    rwa [← List.head?_reverse, List.reverse_reverse] at h
  exact head_dropWhile_not p _ d h1

/-- Claim C10: the canonicalizer's output never contains an uppercase
letter, never begins or ends with a space or hyphen, and never contains two
adjacent spaces or two adjacent hyphens — these hold of every output, also
on inputs (such as `"Aaa"`) where a second canonicalization would still
change the string. -/
theorem normalize_activity_output_invariants (raw : String) :
    (∀ c ∈ (normalize_activity raw).data, c.isUpper = false) ∧
    (∀ c, (normalize_activity raw).data.head? = some c →
      ¬(c = ' ' ∨ c = '-')) ∧
    (∀ c, (normalize_activity raw).data.getLast? = some c →
      ¬(c = ' ' ∨ c = '-')) ∧
    List.Chain' (fun a b => ¬(a = ' ' ∧ b = ' '))
      (normalize_activity raw).data ∧
    List.Chain' (fun a b => ¬(a = '-' ∧ b = '-'))
      (normalize_activity raw).data := by
  have hdata : (normalize_activity raw).data
      = normalize_activity_chars raw.data := rfl
  rw [hdata]
  rw [normalize_activity_chars]
  by_cases hemp : (trimBy Char.isWhitespace raw.data).isEmpty
  · rw [if_pos hemp]
    refine ⟨by simp, by simp, by simp, by simp, by simp⟩
  · rw [if_neg hemp]
    set lowercased := (split_camel_case
      (collapse_repeated_chars (trimBy Char.isWhitespace raw.data))).map
        Char.toLower with hlow
    set s1 := collapseRunsBy Char.isWhitespace ' ' lowercased with hs1
    set s2 := collapseRunsBy (fun c => c == '-') '-' s1 with hs2
    refine ⟨?_, ?_, ?_, ?_, ?_⟩
    · intro c hc
      have hc2 := mem_trimBy isSpaceOrHyphen c s2 hc
      rcases mem_collapseRunsByAux (fun c => c == '-') '-' c s1 false hc2
        with rfl | hc1
      · decide
      · rcases mem_collapseRunsByAux Char.isWhitespace ' ' c lowercased
          false hc1 with rfl | hc0
        · decide
        · obtain ⟨d, _, rfl⟩ := List.mem_map.mp hc0
          exact char_toLower_not_upper d
    · intro c hc
      have := head_trimBy_not isSpaceOrHyphen s2 c hc
      intro hor
      rcases hor with rfl | rfl <;> simp [isSpaceOrHyphen] at this
    · intro c hc
      have := getLast_trimBy_not isSpaceOrHyphen s2 c hc
      intro hor
      rcases hor with rfl | rfl <;> simp [isSpaceOrHyphen] at this
    · refine chain_trimBy _ _ _ ?_
      have hbase : List.Chain'
          (fun a c => ¬(Char.isWhitespace a = true ∧
            Char.isWhitespace c = true)) s1 :=
        chain_collapseRunsByAux Char.isWhitespace ' ' lowercased false
      have hpres : List.Chain'
          (fun a c => ¬(Char.isWhitespace a = true ∧
            Char.isWhitespace c = true)) s2 :=
        chain_preserved_collapseRunsByAux (fun c => c == '-')
          Char.isWhitespace '-' (by decide) s1 false hbase
      refine hpres.imp ?_
      intro a b hab
      intro ⟨ha, hb⟩
      exact hab ⟨by simp [ha], by simp [hb]⟩
    · refine chain_trimBy _ _ _ ?_
      have hbase : List.Chain'
          (fun a c => ¬((a == '-') = true ∧ (c == '-') = true)) s2 :=
        chain_collapseRunsByAux (fun c => c == '-') '-' s1 false
      refine hbase.imp ?_
      intro a b hab
      intro ⟨ha, hb⟩
      exact hab ⟨by simp [ha], by simp [hb]⟩

/-! ## Claim C3 — the rename relabel-and-merge

General list lemmas for reasoning about the by-id update and deletes of the
merge loop. -/

theorem filter_map_eq_filter {α : Type} (f : α → α) (q : α → Bool) :
    ∀ l : List α, (∀ r ∈ l, q (f r) = q r ∧ (q r = true → f r = r)) →
      (l.map f).filter q = l.filter q := by
  intro l
  induction l with
  | nil => intro _; rfl
  | cons x xs ih =>
      intro h
      have hxs := ih fun a ha => h a (List.mem_cons_of_mem _ ha)
      have hx := h x (List.mem_cons_self x xs)
      simp only [List.map_cons, List.filter_cons]
      rw [hx.1]
      by_cases hq : q x = true
      · rw [if_pos hq, if_pos hq, hx.2 hq, hxs]
      · rw [if_neg hq, if_neg hq, hxs]

theorem filter_comm_map {α β : Type} (f : α → β) (q : β → Bool) :
    ∀ l : List α, (l.map f).filter q = (l.filter fun x => q (f x)).map f := by
  intro l
  induction l with
  | nil => rfl
  | cons x xs ih =>
      simp only [List.map_cons, List.filter_cons]
      by_cases hq : q (f x) = true
      · rw [if_pos hq, if_pos hq, List.map_cons, ih]
      · rw [if_neg hq, if_neg hq, ih]

theorem filter_eq_singleton_of {α : Type} (q : α → Bool) (a : α) :
    ∀ l : List α, l.Nodup → a ∈ l → q a = true →
      (∀ b ∈ l, b ≠ a → q b = false) → l.filter q = [a] := by
  intro l
  induction l with
  | nil => intro _ ha _ _; cases ha
  | cons x xs ih =>
      intro hnd hmem hqa hother
      rcases List.mem_cons.mp hmem with rfl | hmem'
      · rw [List.filter_cons, if_pos hqa]
        have hnil : xs.filter q = [] := by
          rw [List.filter_eq_nil_iff]
          intro b hb
          have hba : b ≠ a := by
            rintro rfl
            exact (List.nodup_cons.mp hnd).1 hb
          simp [hother b (List.mem_cons_of_mem _ hb) hba]
        rw [hnil]
      · have hxa : x ≠ a := by
          rintro rfl
          exact (List.nodup_cons.mp hnd).1 hmem'
        rw [List.filter_cons, if_neg (by
          simp [hother x (List.mem_cons_self x xs) hxa])]
        exact ih (List.nodup_cons.mp hnd).2 hmem' hqa
          fun b hb hba => hother b (List.mem_cons_of_mem _ hb) hba

theorem length_filter_add {α : Type} (q : α → Bool) :
    ∀ l : List α,
      (l.filter q).length + (l.filter fun a => !q a).length = l.length := by
  intro l
  induction l with
  | nil => rfl
  | cons x xs ih =>
      simp only [List.filter_cons]
      by_cases hq : q x = true
      · rw [if_pos hq, if_neg (by simp [hq])]
        simpa using by omega
      · rw [if_neg hq, if_pos (by simp [Bool.not_eq_true] at hq; simp [hq])]
        simpa using by omega

theorem countP_key_eq_one {α β : Type} [DecidableEq β] [BEq β] [LawfulBEq β]
    (g : α → β) (l : List α) (hnd : (l.map g).Nodup) (a : α) (ha : a ∈ l) :
    l.countP (fun r => g r == g a) = 1 := by
  have h1 : l.countP (fun r => g r == g a)
      = (l.map g).countP (fun x => x == g a) := by
    rw [List.countP_map]
    rfl
  rw [h1, countP_eq_ite_of_nodup (fun x => x == g a) (g a) _ hnd
    (fun x => by simp), if_pos (List.mem_map_of_mem g ha)]

theorem deleteByIds_eq_filter :
    ∀ (os : List ActivityArchiveRow) (l : List ActivityArchiveRow),
      deleteByIds os l = l.filter fun r => os.all fun o => r.id ≠ o.id := by
  intro os
  induction os with
  | nil =>
      intro l
      simp [deleteByIds]
  | cons o os ih =>
      intro l
      have h1 : deleteByIds (o :: os) l
          = deleteByIds os (l.filter fun r => r.id ≠ o.id) := rfl
      rw [h1, ih, List.filter_filter]
      refine List.filter_congr fun r _ => ?_
      simp [List.all_cons, Bool.and_comm]

theorem deleteByIds_length :
    ∀ (os : List ActivityArchiveRow) (l : List ActivityArchiveRow),
      (os.map (·.id)).Nodup →
      (∀ o ∈ os, l.countP (fun r => r.id == o.id) = 1) →
      (deleteByIds os l).length + os.length = l.length := by
  intro os
  induction os with
  | nil =>
      intro l _ _
      simp [deleteByIds]
  | cons o os ih =>
      intro l hnd hcount
      have h1 : deleteByIds (o :: os) l
          = deleteByIds os (l.filter fun r => r.id ≠ o.id) := rfl
      have hfe : (l.filter fun r => r.id ≠ o.id)
          = l.filter fun r => !(r.id == o.id) := by
        refine List.filter_congr fun r _ => ?_
        by_cases h : r.id = o.id <;> simp [h]
      have hlen1 : (l.filter fun r => r.id ≠ o.id).length + 1 = l.length := by
        have := length_filter_add (fun r => r.id == o.id) l
        have hc := hcount o (List.mem_cons_self o os)
        rw [List.countP_eq_length_filter] at hc
        rw [hfe]
        omega
      have hcount' : ∀ o' ∈ os,
          (l.filter fun r => r.id ≠ o.id).countP
            (fun r => r.id == o'.id) = 1 := by
        intro o' ho'
        have hne : o'.id ≠ o.id := by
          intro he
          have hmm : o'.id ∈ os.map (·.id) :=
            List.mem_map_of_mem (·.id) ho'
          rw [he] at hmm
          exact (List.nodup_cons.mp hnd).1 hmm
        rw [List.countP_eq_length_filter, List.filter_filter]
        have : (l.filter fun a =>
            (a.id == o'.id) && decide (a.id ≠ o.id))
            = l.filter fun a => a.id == o'.id := by
          refine filter_and_of_imp _ _ l fun a _ hq => ?_
          have : a.id = o'.id := by simpa using hq
          simp [this, hne]
        rw [this, ← List.countP_eq_length_filter]
        exact hcount o' (List.mem_cons_of_mem _ ho')
      have ihx := ih (l.filter fun r => r.id ≠ o.id)
        (List.nodup_cons.mp hnd).2 hcount'
      rw [h1]
      simp only [List.length_cons]
      omega

theorem updateTotalById_map_id (i : Nat) (t : Int)
    (rows : List ActivityArchiveRow) :
    (updateTotalById i t rows).map (·.id) = rows.map (·.id) := by
  rw [updateTotalById, List.map_map]
  refine List.map_congr_left fun r _ => ?_
  by_cases h : r.id = i
  · simp [h]
  · simp [h]

theorem groupP_update (u act w : String) (r : ActivityArchiveRow) (t : Int) :
    groupP u act w { r with total_min := t } = groupP u act w r := rfl

/-- The merge loop is the identity on a group that does not collide. -/
theorem mergeGroup_short (u act w : String) (rows : List ActivityArchiveRow)
    (h : (rows.filter (groupP u act w)).length ≤ 1) :
    mergeGroup u act w rows = (rows, 0) := by
  have hlen : (sortById (rows.filter (groupP u act w))).length ≤ 1 := by
    rw [sortById, (List.perm_insertionSort idLe _).length_eq]
    exact h
  cases hsort : sortById (rows.filter (groupP u act w)) with
  | nil => simp [mergeGroup, hsort]
  | cons k os =>
      rw [hsort] at hlen
      cases os with
      | nil => simp [mergeGroup, hsort]
      | cons o2 os2 => simp at hlen

/-- The merge of one colliding `(user, week_label, activity)` group: exactly
one row remains for the key — the lowest-id row of the group, carrying the
group's summed `total_min` — the count is the number of deleted rows, ids
stay distinct, rows outside the key (any predicate ignoring `total_min` and
disjoint from the key) are untouched, and the table shrinks by the count. -/
theorem mergeGroup_collide (u act w : String) (rows : List ActivityArchiveRow)
    (hnd : (rows.map (·.id)).Nodup)
    (h2 : 2 ≤ (rows.filter (groupP u act w)).length) :
    ∃ keep ∈ rows.filter (groupP u act w),
      (∀ g ∈ rows.filter (groupP u act w), keep.id ≤ g.id) ∧
      (mergeGroup u act w rows).1.filter (groupP u act w)
        = [{ keep with total_min :=
            ((rows.filter (groupP u act w)).map (·.total_min)).sum }] ∧
      (mergeGroup u act w rows).2
        = (rows.filter (groupP u act w)).length - 1 ∧
      ((mergeGroup u act w rows).1.map (·.id)).Nodup ∧
      (mergeGroup u act w rows).1.length + (mergeGroup u act w rows).2
        = rows.length ∧
      ∀ q : ActivityArchiveRow → Bool,
        (∀ r, q r = true → groupP u act w r = false) →
        (∀ (r : ActivityArchiveRow) (t : Int),
          q { r with total_min := t } = q r) →
        (mergeGroup u act w rows).1.filter q = rows.filter q := by
  have hperm : List.Perm (sortById (rows.filter (groupP u act w)))
      (rows.filter (groupP u act w)) := List.perm_insertionSort idLe _
  have hsorted : List.Sorted idLe (sortById (rows.filter (groupP u act w))) :=
    List.sorted_insertionSort idLe _
  have hsubG : List.Sublist ((rows.filter (groupP u act w)).map
      (fun r : ActivityArchiveRow => r.id)) (rows.map (·.id)) :=
    List.Sublist.map (fun r : ActivityArchiveRow => r.id)
      (List.filter_sublist rows)
  have hndG : ((rows.filter (groupP u act w)).map (·.id)).Nodup :=
    hsubG.nodup hnd
  have hGnd : (rows.filter (groupP u act w)).Nodup :=
    List.Nodup.of_map _ hndG
  cases hsort : sortById (rows.filter (groupP u act w)) with
  | nil =>
      exfalso
      have := hperm.length_eq
      rw [hsort] at this
      simp at this
      omega
  | cons keep others =>
      cases hos : others with
      | nil =>
          exfalso
          have := hperm.length_eq
          rw [hsort, hos] at this
          simp at this
          omega
      | cons o2 os2 =>
          subst hos
          rw [hsort] at hperm hsorted
          have hne : ((o2 :: os2) : List ActivityArchiveRow).isEmpty
              = false := rfl
          have hmerge : mergeGroup u act w rows
              = (deleteByIds (o2 :: os2)
                  (updateTotalById keep.id
                    (((keep :: o2 :: os2).map (·.total_min)).sum) rows),
                 (o2 :: os2).length) := by
            rw [mergeGroup, hsort]
            rfl
          -- basic membership facts
          have hkeepG : keep ∈ rows.filter (groupP u act w) :=
            hperm.subset (List.mem_cons_self _ _)
          have hkeepRows : keep ∈ rows := (List.mem_filter.mp hkeepG).1
          have hkeepP : groupP u act w keep = true :=
            (List.mem_filter.mp hkeepG).2
          have hothersG : ∀ o ∈ (o2 :: os2), o ∈ rows.filter (groupP u act w) :=
            fun o ho => hperm.subset (List.mem_cons_of_mem _ ho)
          have hidsSort : ((keep :: o2 :: os2).map (·.id)).Nodup :=
            (hperm.map (·.id)).nodup_iff.mpr hndG
          have hkeepNotIn : keep.id ∉ (o2 :: os2).map (·.id) :=
            (List.nodup_cons.mp hidsSort).1
          have hndOthers : ((o2 :: os2).map (·.id)).Nodup :=
            (List.nodup_cons.mp hidsSort).2
          -- the minimality of keep
          have hmin : ∀ g ∈ rows.filter (groupP u act w), keep.id ≤ g.id := by
            intro g hg
            rcases List.mem_cons.mp (hperm.symm.subset hg) with rfl | hg'
            · exact Nat.le_refl _
            · exact (List.sorted_cons.mp hsorted).1 g hg'
          -- the sum over the sorted group is the sum over the group
          have htot : ((keep :: o2 :: os2).map (·.total_min)).sum
              = ((rows.filter (groupP u act w)).map (·.total_min)).sum :=
            (hperm.map (·.total_min)).sum_eq
          -- the kept-row predicate of the delete loop
          have hdel : deleteByIds (o2 :: os2)
              (updateTotalById keep.id
                (((keep :: o2 :: os2).map (·.total_min)).sum) rows)
              = (updateTotalById keep.id
                  (((keep :: o2 :: os2).map (·.total_min)).sum) rows).filter
                  fun r => (o2 :: os2).all fun o => r.id ≠ o.id :=
            deleteByIds_eq_filter _ _
          -- ids after the update
          have hndU : ((updateTotalById keep.id
              (((keep :: o2 :: os2).map (·.total_min)).sum) rows).map
              (·.id)).Nodup := by
            rw [updateTotalById_map_id]
            exact hnd
          refine ⟨keep, hkeepG, hmin, ?_, ?_, ?_, ?_, ?_⟩
          · -- the singleton filter
            rw [hmerge]
            simp only
            rw [hdel, List.filter_comm]
            have hupf : (updateTotalById keep.id
                (((keep :: o2 :: os2).map (·.total_min)).sum) rows).filter
                (groupP u act w)
                = (rows.filter (groupP u act w)).map fun r =>
                    if r.id == keep.id then
                      { r with total_min :=
                        ((keep :: o2 :: os2).map (·.total_min)).sum }
                    else r := by
              rw [updateTotalById, filter_comm_map]
              congr 1
              refine List.filter_congr fun r _ => ?_
              by_cases h : (r.id == keep.id) = true
              · rw [if_pos h, groupP_update]
              · rw [if_neg h]
            rw [hupf, filter_comm_map]
            have hfid : ∀ r : ActivityArchiveRow,
                ((fun r => if r.id == keep.id then
                    { r with total_min :=
                      ((keep :: o2 :: os2).map (·.total_min)).sum }
                  else r) r).id = r.id := by
              intro r
              by_cases h : (r.id == keep.id) = true
              · simp [h]
              · simp [h]
            have hkfilter : (rows.filter (groupP u act w)).filter
                (fun x => (o2 :: os2).all fun o =>
                  ((fun r => if r.id == keep.id then
                      { r with total_min :=
                        ((keep :: o2 :: os2).map (·.total_min)).sum }
                    else r) x).id ≠ o.id)
                = [keep] := by
              have hcong : (rows.filter (groupP u act w)).filter
                  (fun x => (o2 :: os2).all fun o =>
                    ((fun r => if r.id == keep.id then
                        { r with total_min :=
                          ((keep :: o2 :: os2).map (·.total_min)).sum }
                      else r) x).id ≠ o.id)
                  = (rows.filter (groupP u act w)).filter
                    (fun x => (o2 :: os2).all fun o => x.id ≠ o.id) := by
                refine List.filter_congr fun r _ => ?_
                congr 1
                funext o
                rw [hfid r]
              rw [hcong]
              refine filter_eq_singleton_of _ keep _ hGnd hkeepG ?_ ?_
              · rw [List.all_eq_true]
                intro o ho
                simp only [decide_eq_true_eq]
                intro he
                exact hkeepNotIn (he ▸ List.mem_map_of_mem (·.id) ho)
              · intro b hb hbk
                rcases List.mem_cons.mp (hperm.symm.subset hb) with rfl | hb'
                · exact absurd rfl hbk
                · cases hall : (o2 :: os2).all fun o => b.id ≠ o.id
                  · rfl
                  · exfalso
                    rw [List.all_eq_true] at hall
                    have := hall b hb'
                    simp at this
            rw [hkfilter, List.map_singleton]
            congr 1
            show (if (keep.id == keep.id) = true then
                { keep with total_min :=
                  ((keep :: o2 :: os2).map (·.total_min)).sum }
              else keep)
              = { keep with total_min :=
                  ((rows.filter (groupP u act w)).map (·.total_min)).sum }
            rw [if_pos (beq_self_eq_true keep.id), htot]
          · -- the count
            rw [hmerge]
            simp only
            have := hperm.length_eq
            simp only [List.length_cons] at this ⊢
            omega
          · -- ids stay distinct
            rw [hmerge]
            simp only
            rw [hdel]
            refine List.Sublist.nodup ?_ hndU
            exact List.Sublist.map (fun r : ActivityArchiveRow => r.id)
              (List.filter_sublist _)
          · -- the length equation
            rw [hmerge]
            simp only
            have hcount : ∀ o ∈ (o2 :: os2),
                (updateTotalById keep.id
                  (((keep :: o2 :: os2).map (·.total_min)).sum) rows).countP
                  (fun r => r.id == o.id) = 1 := by
              intro o ho
              have hoRows : o ∈ rows :=
                (List.mem_filter.mp (hothersG o ho)).1
              have h1 : (updateTotalById keep.id
                  (((keep :: o2 :: os2).map (·.total_min)).sum) rows).countP
                  (fun r => r.id == o.id)
                  = ((updateTotalById keep.id
                      (((keep :: o2 :: os2).map (·.total_min)).sum) rows).map
                      (·.id)).countP (fun x => x == o.id) := by
                rw [List.countP_map]
                rfl
              rw [h1, updateTotalById_map_id,
                countP_eq_ite_of_nodup (fun x => x == o.id) o.id _ hnd
                  (fun x => by simp),
                if_pos (List.mem_map_of_mem (·.id) hoRows)]
            have hlen := deleteByIds_length (o2 :: os2)
              (updateTotalById keep.id
                (((keep :: o2 :: os2).map (·.total_min)).sum) rows)
              hndOthers hcount
            have hulen : (updateTotalById keep.id
                (((keep :: o2 :: os2).map (·.total_min)).sum) rows).length
                = rows.length := by
              rw [updateTotalById, List.length_map]
            omega
          · -- the frame: rows outside the key are untouched
            intro q hq hqt
            rw [hmerge]
            simp only
            rw [hdel, List.filter_comm]
            have hq1 : (updateTotalById keep.id
                (((keep :: o2 :: os2).map (·.total_min)).sum) rows).filter q
                = rows.filter q := by
              rw [updateTotalById]
              refine filter_map_eq_filter _ q rows fun r hr => ?_
              constructor
              · by_cases h : (r.id == keep.id) = true
                · rw [if_pos h, hqt]
                · rw [if_neg h]
              · intro hqr
                by_cases h : (r.id == keep.id) = true
                · exfalso
                  have hre : r = keep :=
                    List.inj_on_of_nodup_map hnd hr hkeepRows
                      (by simpa using h)
                  subst hre
                  rw [hq r hqr] at hkeepP
                  cases hkeepP
                · rw [if_neg h]
            rw [hq1]
            rw [List.filter_eq_self]
            intro r hr
            have hqr : q r = true := (List.mem_filter.mp hr).2
            have hrRows : r ∈ rows := (List.mem_filter.mp hr).1
            rw [List.all_eq_true]
            intro o ho
            simp only [decide_eq_true_eq]
            intro he
            have hoRows : o ∈ rows := (List.mem_filter.mp (hothersG o ho)).1
            have hro : r = o := List.inj_on_of_nodup_map hnd hrRows hoRows he
            have hoP : groupP u act w o = true :=
              (List.mem_filter.mp (hothersG o ho)).2
            rw [← hro, hq r hqr] at hoP
            cases hoP

theorem groupP_disjoint (u act : String) (w w' : String) (hne : w ≠ w')
    (r : ActivityArchiveRow) (h : groupP u act w r = true) :
    groupP u act w' r = false := by
  simp only [groupP, Bool.and_eq_true] at h
  have hw : r.week_label = w := by simpa using h.1.2
  simp only [groupP, Bool.and_eq_false_iff]
  left
  right
  simp [hw, hne]

theorem mem_dupeWeekLabels (u act : String) (w : String)
    (rows : List ActivityArchiveRow) :
    w ∈ dupeWeekLabels u act rows ↔ 1 < rows.countP (groupP u act w) := by
  constructor
  · intro h
    have := (List.mem_filter.mp h).2
    simpa using this
  · intro h
    refine List.mem_filter.mpr ⟨?_, by simpa using h⟩
    have hpos : 0 < rows.countP (groupP u act w) := by omega
    obtain ⟨r, hr, hpr⟩ := List.countP_pos_iff.mp hpos
    simp only [groupP, Bool.and_eq_true] at hpr
    rw [mem_dedupFirst]
    refine List.mem_map.mpr ⟨r, List.mem_filter.mpr ⟨hr, ?_⟩, ?_⟩
    · simp only [Bool.and_eq_true]
      exact ⟨hpr.1.1, hpr.2⟩
    · simpa using hpr.1.2

theorem nodup_dupeWeekLabels (u act : String)
    (rows : List ActivityArchiveRow) : (dupeWeekLabels u act rows).Nodup :=
  (nodup_dedupFirst _).filter _

theorem mergeStep_acc (u act : String) :
    ∀ (L : List String) (base : List ActivityArchiveRow) (m0 : Nat),
      (L.foldl (mergeStep u act) (base, m0)).1
        = (L.foldl (mergeStep u act) (base, 0)).1 ∧
      (L.foldl (mergeStep u act) (base, m0)).2
        = m0 + (L.foldl (mergeStep u act) (base, 0)).2 := by
  intro L
  induction L with
  | nil => intro base m0; exact ⟨rfl, by simp⟩
  | cons w L ih =>
      intro base m0
      have h1 : (w :: L).foldl (mergeStep u act) (base, m0)
          = L.foldl (mergeStep u act)
              ((mergeGroup u act w base).1,
               m0 + (mergeGroup u act w base).2) := rfl
      have h2 : (w :: L).foldl (mergeStep u act) (base, 0)
          = L.foldl (mergeStep u act)
              ((mergeGroup u act w base).1,
               0 + (mergeGroup u act w base).2) := rfl
      rw [h1, h2]
      obtain ⟨ha, hb⟩ := ih (mergeGroup u act w base).1
        (m0 + (mergeGroup u act w base).2)
      obtain ⟨hc, hd⟩ := ih (mergeGroup u act w base).1
        (0 + (mergeGroup u act w base).2)
      refine ⟨by rw [ha, hc], ?_⟩
      rw [hb, hd]
      omega

theorem foldl_merge_spec (u act : String) :
    ∀ (L : List String) (base : List ActivityArchiveRow),
      (base.map (·.id)).Nodup → L.Nodup →
      (∀ w ∈ L, 2 ≤ (base.filter (groupP u act w)).length) →
      ((L.foldl (mergeStep u act) (base, 0)).1.map (·.id)).Nodup ∧
      ((L.foldl (mergeStep u act) (base, 0)).1.length
        + (L.foldl (mergeStep u act) (base, 0)).2 = base.length) ∧
      ((L.foldl (mergeStep u act) (base, 0)).2
        = (L.map fun w =>
            (base.filter (groupP u act w)).length - 1).sum) ∧
      (∀ w ∈ L, ∃ keep ∈ base.filter (groupP u act w),
        (∀ g ∈ base.filter (groupP u act w), keep.id ≤ g.id) ∧
        (L.foldl (mergeStep u act) (base, 0)).1.filter (groupP u act w)
          = [{ keep with total_min :=
              ((base.filter (groupP u act w)).map (·.total_min)).sum }]) ∧
      (∀ q : ActivityArchiveRow → Bool,
        (∀ r, q r = true → ∀ w ∈ L, groupP u act w r = false) →
        (∀ (r : ActivityArchiveRow) (t : Int),
          q { r with total_min := t } = q r) →
        (L.foldl (mergeStep u act) (base, 0)).1.filter q
          = base.filter q) := by
  intro L
  induction L with
  | nil =>
      intro base hnd _ _
      exact ⟨hnd, by simp, by simp, by simp, fun q _ _ => rfl⟩
  | cons w0 L ih =>
      intro base hnd hL hcol
      have hw0 : 2 ≤ (base.filter (groupP u act w0)).length :=
        hcol w0 (List.mem_cons_self _ _)
      obtain ⟨keep0, hkeep0G, hmin0, hfilter0, hcount0, hnd0, hlen0, hframe0⟩ :=
        mergeGroup_collide u act w0 base hnd hw0
      have hstep : (w0 :: L).foldl (mergeStep u act) (base, 0)
          = L.foldl (mergeStep u act)
              ((mergeGroup u act w0 base).1,
               0 + (mergeGroup u act w0 base).2) := rfl
      obtain ⟨hacc1, hacc2⟩ := mergeStep_acc u act L
        (mergeGroup u act w0 base).1 (0 + (mergeGroup u act w0 base).2)
      have hw0notL : w0 ∉ L := (List.nodup_cons.mp hL).1
      have hLnd : L.Nodup := (List.nodup_cons.mp hL).2
      -- groups of other labels are untouched by the first merge
      have hother : ∀ w ∈ L, (mergeGroup u act w0 base).1.filter
          (groupP u act w) = base.filter (groupP u act w) := by
        intro w hw
        have hne : w ≠ w0 := fun he => hw0notL (he ▸ hw)
        exact hframe0 (groupP u act w)
          (fun r hr => groupP_disjoint u act w w0 hne r hr)
          (fun r t => groupP_update u act w r t)
      have hcol' : ∀ w ∈ L,
          2 ≤ ((mergeGroup u act w0 base).1.filter
            (groupP u act w)).length := by
        intro w hw
        rw [hother w hw]
        exact hcol w (List.mem_cons_of_mem _ hw)
      obtain ⟨ihnd, ihlen, ihcount, ihlabel, ihframe⟩ :=
        ih (mergeGroup u act w0 base).1 hnd0 hLnd hcol'
      refine ⟨?_, ?_, ?_, ?_, ?_⟩
      · rw [hstep, hacc1]
        exact ihnd
      · rw [hstep, hacc1, hacc2]
        omega
      · rw [hstep, hacc2, ihcount]
        have hmapeq : (L.map fun w =>
            ((mergeGroup u act w0 base).1.filter
              (groupP u act w)).length - 1)
            = L.map fun w => (base.filter (groupP u act w)).length - 1 :=
          List.map_congr_left fun w hw => by rw [hother w hw]
        rw [hmapeq]
        simp only [List.map_cons, List.sum_cons]
        omega
      · intro w hw
        rcases List.mem_cons.mp hw with rfl | hw'
        · refine ⟨keep0, hkeep0G, hmin0, ?_⟩
          rw [hstep, hacc1]
          rw [ihframe (groupP u act w)
            (fun r hr w' hw' => groupP_disjoint u act w w'
              (fun he => hw0notL (he ▸ hw')) r hr)
            (fun r t => groupP_update u act w r t)]
          exact hfilter0
        · obtain ⟨keep, hkeepG, hmin, hfilter⟩ := ihlabel w hw'
          rw [hother w hw'] at hkeepG hmin hfilter
          refine ⟨keep, hkeepG, hmin, ?_⟩
          rw [hstep, hacc1]
          exact hfilter
      · intro q hq hqt
        rw [hstep, hacc1]
        rw [ihframe q
          (fun r hr w hw => hq r hr w (List.mem_cons_of_mem _ hw)) hqt]
        exact hframe0 q
          (fun r hr => hq r hr w0 (List.mem_cons_self _ _)) hqt

theorem rename_relabel_only_map_id (u old new : String) (st : Store) :
    (rename_relabel_only u old new st).activity_archive.map (·.id)
      = st.activity_archive.map (·.id) := by
  show (st.activity_archive.map _).map (fun r : ActivityArchiveRow => r.id)
      = _
  rw [List.map_map]
  refine List.map_congr_left fun r _ => ?_
  by_cases h : r.user_id = u ∧ r.activity = old
  · simp [h]
  · simp [h]

/-- What the relabel-and-merge of `rename_activity` guarantees: the session
count it reports, the relabeled sessions, one lowest-id summed row per
colliding `(user, week_label, new)` archive group, the merge count as the
sum of group shrinkages, and the merge count as the number of archive rows
that disappeared. -/
def RenameMergePost (u old new : String) (st st' : Store)
    (su am : Nat) : Prop :=
  su = st.sessions.countP (fun r => r.user_id == u && r.activity == old) ∧
  st'.sessions = (rename_relabel_only u old new st).sessions ∧
  (∀ w : String,
    2 ≤ ((rename_relabel_only u old new st).activity_archive.filter
      (groupP u new w)).length →
    ∃ keep ∈ (rename_relabel_only u old new st).activity_archive.filter
        (groupP u new w),
      (∀ g ∈ (rename_relabel_only u old new st).activity_archive.filter
          (groupP u new w), keep.id ≤ g.id) ∧
      st'.activity_archive.filter (groupP u new w)
        = [{ keep with total_min :=
            (((rename_relabel_only u old new st).activity_archive.filter
              (groupP u new w)).map (·.total_min)).sum }]) ∧
  am = ((dupeWeekLabels u new
      (rename_relabel_only u old new st).activity_archive).map fun w =>
      ((rename_relabel_only u old new st).activity_archive.filter
        (groupP u new w)).length - 1).sum ∧
  st'.activity_archive.length + am = st.activity_archive.length

/-- Claim C3: after a successful `rename_activity(user, old, new)` on a
store with distinct archive-row ids, every colliding
`(user, week_label, new)` group of the relabeled archive collapses to
exactly one row — the lowest-id row of the group, with the group's summed
`total_min` — `sessions_updated` is the number of session rows the relabel
matched, and `archive_rows_merged` is both the sum of the group shrinkages
and the exact number of archive rows deleted. -/
theorem rename_activity_merge (u old new : String) (st st' : Store)
    (su am : Nat) (hnd : (st.activity_archive.map (·.id)).Nodup)
    (h : rename_activity u old new st = .ok (st', su, am)) :
    RenameMergePost u old new st st' su am := by
  by_cases hc : (st.sessions.countP fun r =>
      r.user_id == u && r.activity == old) = 0 ∧
      (st.activity_archive.countP fun r =>
        r.user_id == u && r.activity == old) = 0
  · rw [rename_activity] at h
    rw [if_pos hc] at h
    cases h
  · rw [rename_activity] at h
    rw [if_neg hc] at h
    have h2 := Except.ok.inj h
    simp only [Prod.mk.injEq] at h2
    obtain ⟨h2a, h2b, h2c⟩ := h2
    have hnd1 : ((rename_relabel_only u old new st).activity_archive.map
        (·.id)).Nodup := by
      rw [rename_relabel_only_map_id]
      exact hnd
    have hL := nodup_dupeWeekLabels u new
      (rename_relabel_only u old new st).activity_archive
    have hcol : ∀ w ∈ dupeWeekLabels u new
        (rename_relabel_only u old new st).activity_archive,
        2 ≤ ((rename_relabel_only u old new st).activity_archive.filter
          (groupP u new w)).length := by
      intro w hw
      have := (mem_dupeWeekLabels u new w _).mp hw
      rw [List.countP_eq_length_filter] at this
      omega
    obtain ⟨_, hflen, hfcount, hflabel, _⟩ :=
      foldl_merge_spec u new
        (dupeWeekLabels u new
          (rename_relabel_only u old new st).activity_archive)
        (rename_relabel_only u old new st).activity_archive
        hnd1 hL hcol
    refine ⟨h2b.symm, ?_, ?_, ?_, ?_⟩
    · rw [← h2a]
    · intro w hlen
      have hwmem : w ∈ dupeWeekLabels u new
          (rename_relabel_only u old new st).activity_archive := by
        rw [mem_dupeWeekLabels, List.countP_eq_length_filter]
        omega
      obtain ⟨keep, hkeepG, hmin, hfilter⟩ := hflabel w hwmem
      refine ⟨keep, hkeepG, hmin, ?_⟩
      rw [← h2a]
      exact hfilter
    · rw [← h2c]
      exact hfcount
    · have harchlen : (rename_relabel_only u old new st).activity_archive.length
          = st.activity_archive.length := by
        show (st.activity_archive.map _).length = _
        rw [List.length_map]
      rw [← h2a, ← h2c]
      simp only
      omega

/-- The store of the rename-conservation scenario: archive totals 60 under
`"work"` and 30 under `"boring work"` in the same week. -/
def mgStore : Store :=
  { sessions := [], weekly_archive := [],
    activity_archive :=
      [⟨0, "user123", "TestUser", "KW07/2026", "work", 60⟩,
       ⟨1, "user123", "TestUser", "KW07/2026", "boring work", 30⟩],
    next_session_id := 0, next_weekly_id := 0, next_activity_id := 2 }

/-- The store after renaming `"boring work"` to `"work"`: one archive row
with `total_min = 90`. -/
def mgStoreAfter : Store :=
  { sessions := [], weekly_archive := [],
    activity_archive :=
      [⟨0, "user123", "TestUser", "KW07/2026", "work", 90⟩],
    next_session_id := 0, next_weekly_id := 0, next_activity_id := 2 }

/-- Witness for the rename merge at the spec's concrete scenario: totals
`[60, 30]` under two labels collapsing to one row with `total_min = 90`
and `archive_rows_merged = 1`. -/
theorem rename_activity_merge_witness :
    ((mgStore.activity_archive.map (·.id)).Nodup ∧
      rename_activity "user123" "boring work" "work" mgStore
        = .ok (mgStoreAfter, 0, 1)) ∧
    RenameMergePost "user123" "boring work" "work" mgStore mgStoreAfter 0 1 :=
  ⟨⟨by decide, by decide⟩,
   rename_activity_merge "user123" "boring work" "work" mgStore mgStoreAfter
     0 1 (by decide) (by decide)⟩

end Clock
